import Mathlib

/-!
Verification of the pagination / cache / filter-sort core of the AT Pages blog
manager (CLI `pages.mjs`, front ends `src/pages/js/renderer.js` and
`src/pages/write/js/*`).

JavaScript strings are modelled as `List Char`; JavaScript `Date` parsing of a
string (the platform `new Date(s)`) is an external parameter `dateParse` that
returns the timestamp in milliseconds, or `none` for an Invalid Date.
`Array.prototype.sort`, which ECMA-262 requires to be a stable sort, is
modelled by a stable insertion sort.
-/

/-- JavaScript strings, modelled as lists of characters. -/
abbrev Str := List Char

/-- The whitespace class used by JavaScript `\s` and `String.prototype.trim`
(the ASCII part plus no-break space, which is all the source can meet). -/
def isJsWs (c : Char) : Bool :=
  c.toNat == 32 || c.toNat == 9 || c.toNat == 10 || c.toNat == 11 ||
    c.toNat == 12 || c.toNat == 13 || c.toNat == 160

/-- ASCII case folding of `String.prototype.toLowerCase` (the slugs, search
terms and category names handled by the source are ASCII). -/
def jsToLower (c : Char) : Char :=
  if 65 ≤ c.toNat ∧ c.toNat ≤ 90 then Char.ofNat (c.toNat + 32) else c

/-- JavaScript `\w`: ASCII letters, digits and underscore (code 95). -/
def isWordChar (c : Char) : Bool :=
  (97 ≤ c.toNat && c.toNat ≤ 122) || (65 ≤ c.toNat && c.toNat ≤ 90) ||
    (48 ≤ c.toNat && c.toNat ≤ 57) || c.toNat == 95

/-- The character class `[\w-]` kept by the slug sanitizer. -/
def isWordOrHyphen (c : Char) : Bool :=
  isWordChar c || c.toNat == 45

/-- Drop the trailing characters satisfying `p`. -/
def dropTrailing (p : Char → Bool) (l : Str) : Str :=
  (l.reverse.dropWhile p).reverse

/-- `String.prototype.trim`: drop leading and trailing whitespace. -/
def jsTrim (l : Str) : Str :=
  dropTrailing isJsWs (l.dropWhile isJsWs)

/-- `replace(/X+/g, r)` for a character class `p`: every maximal run of
characters satisfying `p` is replaced by the single character `r`. -/
def collapseRuns (p : Char → Bool) (r : Char) : Str → Str
  | [] => []
  | [c] => if p c then [r] else [c]
  | c :: d :: cs =>
    if p c then
      if p d then collapseRuns p r (d :: cs)
      else r :: collapseRuns p r (d :: cs)
    else c :: collapseRuns p r (d :: cs)

/-- `String.prototype.includes` (substring test). -/
def includesSub (hay needle : Str) : Bool :=
  match hay with
  | [] => needle.isEmpty
  | _ :: rest => needle.isPrefixOf hay || includesSub rest needle

/-- The `value` document of one `app.blog.post` record, restricted to the
fields the core reads. A JavaScript field that may be structurally absent is
an `Option`. -/
structure PostValue where
  title : Option Str
  shortDescription : Option Str
  content : Option Str
  slug : Option Str
  category : Option Str
  tags : Option (List Str)
  publishedAt : Option Str
  recommended : Option Bool
deriving DecidableEq

/-- One record as returned by the store list operation: `{uri, cid, value}`. -/
structure PostRecord where
  uri : Str
  cid : Str
  value : PostValue
deriving DecidableEq

/-- A `PostValue` with every field absent, used to build concrete records. -/
def emptyValue : PostValue :=
  { title := none, shortDescription := none, content := none, slug := none,
    category := none, tags := none, publishedAt := none, recommended := none }

/-- Insert `a` into `l` in front of the first element `b` with `le a b`. -/
def insertOrd (le : α → α → Bool) (a : α) : List α → List α
  | [] => [a]
  | b :: l => if le a b then a :: b :: l else b :: insertOrd le a l

/-- Model of `Array.prototype.sort` with a consistent comparator: a stable
insertion sort (ECMA-262 requires sort to be stable; with a consistent
comparator the result is ordered by le and ties keep their input order). -/
def jsSortLe (le : α → α → Bool) : List α → List α
  | [] => []
  | a :: l => insertOrd le a (jsSortLe le l)

/-- `compareAsc` of date-fns on two valid dates given as timestamps. -/
def compareAsc (x y : Int) : Int :=
  if x < y then -1 else if x = y then 0 else 1

/-- `compareDesc` of date-fns on two valid dates given as timestamps. -/
def compareDesc (x y : Int) : Int :=
  if y < x then -1 else if x = y then 0 else 1

/-- The date each record is sorted by in `getFilteredAndSortedPosts`
(src/pages/write/js/utils.js): `a?.value?.publishedAt ? new Date(a.value.publishedAt)
: new Date(0)`.  A truthy (present, non-empty) `publishedAt` is parsed by the
platform (`dateParse`), anything else is the epoch `new Date(0)`. `none` is an
Invalid Date. -/
def dateKey (dateParse : Str → Option Int) (r : PostRecord) : Option Int :=
  match r.value.publishedAt with
  | some s => if s.isEmpty then some 0 else dateParse s
  | none => some 0

/-- `sortCompareFn` from `getFilteredAndSortedPosts`: Invalid Dates compare
equal to each other and after everything else; two valid dates compare with
`compareAsc` for the `oldest` order and `compareDesc` otherwise. -/
def sortCompareFn (dateParse : Str → Option Int) (sortOrder : Str)
    (a b : PostRecord) : Int :=
  match dateKey dateParse a, dateKey dateParse b with
  | none, none => 0
  | none, some _ => 1
  | some _, none => -1
  | some x, some y =>
    if sortOrder = "oldest".data then compareAsc x y else compareDesc x y

/-- One search field test: `field?.toLowerCase().includes(lowerSearchTerm)`. -/
def fieldIncludes (field : Option Str) (lowerSearchTerm : Str) : Bool :=
  match field with
  | some s => includesSub (s.map jsToLower) lowerSearchTerm
  | none => false

/-- The search predicate of `getFilteredAndSortedPosts`: the lower-cased term
is a substring of title, shortDescription, content, slug, category, or of some
tag. -/
def matchesSearch (lowerSearchTerm : Str) (p : PostRecord) : Bool :=
  fieldIncludes p.value.title lowerSearchTerm ||
  fieldIncludes p.value.shortDescription lowerSearchTerm ||
  fieldIncludes p.value.content lowerSearchTerm ||
  fieldIncludes p.value.slug lowerSearchTerm ||
  fieldIncludes p.value.category lowerSearchTerm ||
  (match p.value.tags with
   | some tags => tags.any (fun tag => includesSub (tag.map jsToLower) lowerSearchTerm)
   | none => false)

/-- `getFilteredAndSortedPosts` from src/pages/write/js/utils.js: category
filter (with the synthetic `Recommended` sentinel), then free-text search
filter, then the stable sort by `sortCompareFn`. -/
def getFilteredAndSortedPosts (dateParse : Str → Option Int)
    (posts : List PostRecord) (searchTerm category sortOrder : Str) :
    List PostRecord :=
  let f1 :=
    if category.isEmpty then posts
    else if category = "Recommended".data then
      posts.filter (fun p => p.value.recommended == some true)
    else posts.filter (fun p => p.value.category == some category)
  let f2 :=
    if searchTerm.isEmpty then f1
    else
      let lowerSearchTerm := searchTerm.map jsToLower
      f1.filter (fun p => matchesSearch lowerSearchTerm p)
  jsSortLe (fun a b => decide (sortCompareFn dateParse sortOrder a b ≤ 0)) f2

/-- A concrete instance of the platform date parser, with the real ECMA-262
timestamps of the two ISO dates of the spec scenarios; every other string is
an Invalid Date. -/
def demoDateParse (s : Str) : Option Int :=
  if s = "2024-01-01".data then some 1704067200000
  else if s = "2024-06-01".data then some 1717200000000
  else none

/-- Concrete record dated 2024-01-01. -/
def rJan : PostRecord :=
  { uri := "at://did:plc:demo/app.blog.post/jan".data, cid := "cidjan".data,
    value := { emptyValue with publishedAt := some ("2024-01-01".data) } }

/-- Concrete record dated 2024-06-01. -/
def rJun : PostRecord :=
  { uri := "at://did:plc:demo/app.blog.post/jun".data, cid := "cidjun".data,
    value := { emptyValue with publishedAt := some ("2024-06-01".data) } }

/-- Concrete record with no `publishedAt`. -/
def rUndated : PostRecord :=
  { uri := "at://did:plc:demo/app.blog.post/und".data, cid := "cidund".data,
    value := emptyValue }

/-- `POSTS_PER_PAGE` from src/pages/write/js/config.js. -/
def POSTS_PER_PAGE : Nat := 25

/-- The module-level state of src/pages/write/js/state.js touched by the
fetch, cache and category logic. The JS `Set` of categories is kept in
insertion order. -/
structure WriteState where
  fetchedPostsCache : List PostRecord
  cursor : Option Str
  isLoadingMore : Bool
  allPostsLoaded : Bool
  uniqueCategories : List Str
deriving DecidableEq

/-- `appendPostsToCache` from state.js: skip any incoming record whose uri is
already cached, append the rest in order. -/
def appendPostsToCache (cache newPosts : List PostRecord) : List PostRecord :=
  let existingUris := cache.map (fun p => p.uri)
  cache ++ newPosts.filter (fun p => !(existingUris.contains p.uri))

/-- One step of `updateUniqueCategories` for a single post: take
`post?.value?.category?.trim()` and add it to the set when it is truthy, not
the literal string `Recommended`, and not already present. -/
def addCategoryOfPost (acc : List Str) (post : PostRecord) : List Str :=
  match post.value.category with
  | none => acc
  | some c0 =>
    let c := jsTrim c0
    if !c.isEmpty && c != "Recommended".data && !(acc.contains c) then acc ++ [c]
    else acc

/-- `updateUniqueCategories` from state.js, over one page of posts. -/
def updateUniqueCategories (cats : List Str) (posts : List PostRecord) : List Str :=
  posts.foldl addCategoryOfPost cats

/-- The comparison of the default (comparator-less) `Array.prototype.sort`:
lexicographic by character code. -/
def strLe : Str → Str → Bool
  | [], _ => true
  | _ :: _, [] => false
  | a :: s, b :: t =>
    if a.toNat < b.toNat then true
    else if b.toNat < a.toNat then false
    else strLe s t

/-- `getUniqueCategories` from state.js: the sorted actual categories, with
the synthetic `Recommended` entry prepended when some cached post has
`recommended === true` and the actual set lacks the literal string. -/
def getUniqueCategories (st : WriteState) : List Str :=
  let actualCategories := jsSortLe strLe st.uniqueCategories
  let hasRecommended :=
    st.fetchedPostsCache.any (fun p => p.value.recommended == some true)
  if hasRecommended && !(actualCategories.contains ("Recommended".data)) then
    "Recommended".data :: actualCategories
  else actualCategories

/-- The cache update of the update branch (`rkey` present) of `handleSavePost`
in state.js: map over the cache, replacing the entry whose uri matches. -/
def replacePostInCache (cache : List PostRecord) (newRecord : PostRecord) :
    List PostRecord :=
  cache.map (fun p => if p.uri = newRecord.uri then newRecord else p)

/-- One response of `api.fetchBlogPostsBatch`: a page of records and the next
cursor. -/
structure BatchResult where
  records : List PostRecord
  cursor : Option Str
deriving DecidableEq

/-- `fetchAndAppendPosts` from state.js as a state transformer. `fetchBatch`
models `api.fetchBlogPostsBatch(POSTS_PER_PAGE, cursor)`. A call while a load
is in flight returns at once with nothing mutated; on success the batch is
appended (dedup by uri), the cursor stored, the category set updated, and
`allPostsLoaded` set exactly when the new cursor is absent or the batch is
shorter than `POSTS_PER_PAGE`; on a fetch error only the status display
changes, so the state is unchanged. The loading flag, set for the duration of
the call, is always reset by the `finally` block. -/
def fetchAndAppendPosts (fetchBatch : Option Str → Except Str BatchResult)
    (st : WriteState) (cursor : Option Str) : WriteState :=
  if st.isLoadingMore then st
  else
    match fetchBatch cursor with
    | Except.error _ => st
    | Except.ok batch =>
      { st with
        fetchedPostsCache := appendPostsToCache st.fetchedPostsCache batch.records,
        cursor := batch.cursor,
        uniqueCategories := updateUniqueCategories st.uniqueCategories batch.records,
        allPostsLoaded :=
          batch.cursor.isNone || decide (batch.records.length < POSTS_PER_PAGE) }

/-- `handleLoadMore` from state.js: a no-op when all posts are loaded or a
fetch walk is already in flight; otherwise fetch one more batch starting at
the stored cursor. -/
def handleLoadMore (fetchBatch : Option Str → Except Str BatchResult)
    (st : WriteState) : WriteState :=
  if st.allPostsLoaded || st.isLoadingMore then st
  else fetchAndAppendPosts fetchBatch st st.cursor

/-- A state with a fetch walk in flight, for witnesses. -/
def loadingState : WriteState :=
  { fetchedPostsCache := [rJan], cursor := some ("c1".data),
    isLoadingMore := true, allPostsLoaded := false, uniqueCategories := [] }


/-- Concrete recommended record (category `tech`). -/
def rRec : PostRecord :=
  { uri := "at://did:plc:demo/app.blog.post/rec".data, cid := "cidrec".data,
    value := { emptyValue with
               category := some ("tech".data)
               recommended := some true } }

/-- Concrete state for the category-query witness. -/
def catState : WriteState :=
  { fetchedPostsCache := [rRec, rJan], cursor := none, isLoadingMore := false,
    allPostsLoaded := true, uniqueCategories := ["tech".data, "art".data] }


/-- One page response of the store list operation: `{records, cursor}`. -/
structure ListPage where
  records : List PostRecord
  cursor : Option Str
deriving DecidableEq

/-- `MAX_LIST_LIMIT` from the renderer config: pages of 100 are requested. -/
def MAX_LIST_LIMIT : Nat := 100

/-- The pagination loop of `fetchAllRecordsForUser` (src/pages/js/renderer.js).
`listPage` models one `fetchRecords(did, collection, MAX_LIST_LIMIT, cursor)`
call, which returns a page or throws an error message; `budget` is
`maxPages - pagesFetched` at loop entry. After a page the loop breaks when
the returned cursor is absent or `pagesFetched >= maxPages`; there is no
short-page check. A thrown error aborts the walk at once, dropping the
accumulator. (The side accumulation of sanitized category labels is display
glue and is not modelled.) -/
def fetchAllLoop (listPage : Option Str → Except Str ListPage) :
    Nat → Option Str → List PostRecord → Except Str (List PostRecord)
  | 0, cursor, acc =>
    match listPage cursor with
    | Except.error e => Except.error e
    | Except.ok page => Except.ok (acc ++ page.records)
  | 1, cursor, acc =>
    match listPage cursor with
    | Except.error e => Except.error e
    | Except.ok page => Except.ok (acc ++ page.records)
  | b + 2, cursor, acc =>
    match listPage cursor with
    | Except.error e => Except.error e
    | Except.ok page =>
      match page.cursor with
      | none => Except.ok (acc ++ page.records)
      | some c => fetchAllLoop listPage (b + 1) (some c) (acc ++ page.records)

/-- `fetchAllRecordsForUser(did, collection, categories, maxPages = 30)` from
renderer.js: run the walk from no cursor; a thrown message that signals the
expected empty-collection 400 ("Could not list records" or "Status 400") is
converted into an empty success, any other error is re-thrown. -/
def fetchAllRecordsForUser (listPage : Option Str → Except Str ListPage)
    (maxPages : Nat) : Except Str (List PostRecord) :=
  match fetchAllLoop listPage maxPages none [] with
  | Except.ok records => Except.ok records
  | Except.error e =>
    if includesSub e ("Could not list records".data) ||
        includesSub e ("Status 400".data) then Except.ok []
    else Except.error e

/-- The do-while walk of `fetchAllRecords(collection)` of the CLI
(src/unnamed/part_001): keep fetching pages of 100 while a cursor comes back;
no short-page check and no page budget, so `fuel` only bounds the recursion
of the model (`none` means the loop is still running after `fuel` pages,
which cannot happen against a store that eventually omits the cursor). A
caught fetch error makes the whole function return the empty list. -/
def fetchAllRecordsLoop (listPage : Option Str → Except Str ListPage) :
    Nat → Option Str → List PostRecord → Option (List PostRecord)
  | 0, _, _ => none
  | fuel + 1, cursor, acc =>
    match listPage cursor with
    | Except.error _ => some []
    | Except.ok page =>
      match page.cursor with
      | none => some (acc ++ page.records)
      | some c => fetchAllRecordsLoop listPage fuel (some c) (acc ++ page.records)

/-- `fetchAllRecords` of the CLI, with recursion fuel. -/
def fetchAllRecords (listPage : Option Str → Except Str ListPage)
    (fuel : Nat) : Option (List PostRecord) :=
  fetchAllRecordsLoop listPage fuel none []

/-- A store whose first page is short (1 < 100 records) but still cursored,
with a final second page: separates the stop rules. -/
def shortPageStore (cursor : Option Str) : Except Str ListPage :=
  match cursor with
  | none => Except.ok { records := [rJan], cursor := some ("c1".data) }
  | some c =>
    if c = "c1".data then Except.ok { records := [rJun], cursor := none }
    else Except.error ("unexpected cursor".data)

/-- A store whose first page is empty but cursored, with a final second
page. -/
def emptyPageStore (cursor : Option Str) : Except Str ListPage :=
  match cursor with
  | none => Except.ok { records := [], cursor := some ("c1".data) }
  | some c =>
    if c = "c1".data then Except.ok { records := [rJun], cursor := none }
    else Except.error ("unexpected cursor".data)

/-- A store whose every request throws a generic network error. -/
def failingStore (_ : Option Str) : Except Str ListPage :=
  Except.error ("Network request failed".data)

/-- A store whose every request throws the empty-collection message of
`fetchRecords` (status 400). -/
def list400Store (_ : Option Str) : Except Str ListPage :=
  Except.error ("Could not list records. User may not exist (Status 400)".data)

/-- A fresh write-UI state: nothing cached, nothing loading. -/
def freshState : WriteState :=
  { fetchedPostsCache := [], cursor := none, isLoadingMore := false,
    allPostsLoaded := false, uniqueCategories := [] }

/-- A batch fetch returning an empty page that still carries a cursor. -/
def emptyBatchFetch (_ : Option Str) : Except Str BatchResult :=
  Except.ok { records := [], cursor := some ("c1".data) }

/-- A batch fetch returning one record and no cursor. -/
def richBatchFetch (_ : Option Str) : Except Str BatchResult :=
  Except.ok { records := [rJun], cursor := none }


/-- The five chained replacements of `sanitizeSlug`
(src/pages/write/js/utils.js): `toLowerCase`, `trim`, whitespace runs to a
hyphen, strip characters outside `[\w-]`, collapse hyphen runs. -/
def slugCore (inputSlug : Str) : Str :=
  collapseRuns (fun c => c == '-') '-'
    ((collapseRuns isJsWs '-' (jsTrim (inputSlug.map jsToLower))).filter
      isWordOrHyphen)

/-- `sanitizeSlug(inputSlug, final)`: a falsy (empty) input gives the empty
string; otherwise the five-step pipeline runs, and when finalizing the
leading and trailing hyphens are stripped. -/
def sanitizeSlug (inputSlug : Str) (final : Bool) : Str :=
  if inputSlug.isEmpty then []
  else if final then
    dropTrailing (fun c => c == '-')
      ((slugCore inputSlug).dropWhile (fun c => c == '-'))
  else slugCore inputSlug


mutual
/-- JSON values as they occur in exported blog records (strings, booleans,
null, arrays and objects; the record schema has no numeric fields — dates are
ISO strings). Objects keep their fields in insertion order, as
JSON.stringify and JSON.parse both do. -/
inductive Json where
  | null : Json
  | bool (b : Bool) : Json
  | str (s : Str) : Json
  | arr (elems : JsonList) : Json
  | obj (fields : JsonFields) : Json
inductive JsonList where
  | nil : JsonList
  | cons (hd : Json) (tl : JsonList) : JsonList
inductive JsonFields where
  | nil : JsonFields
  | cons (key : Str) (val : Json) (tl : JsonFields) : JsonFields
end

/-- Lowercase hex digit of `n < 16`. -/
def hexDigit (n : Nat) : Char :=
  if n < 10 then Char.ofNat (48 + n) else Char.ofNat (87 + n)

/-- QuoteJSONString escape of one character (ECMA-262 JSON.stringify):
quote, backslash and the named control escapes, a `u00xx` escape for the
other control characters, every other character unchanged. -/
def escapeChar (c : Char) : Str :=
  if c = '\x22' then ['\\', '\x22']
  else if c = '\\' then ['\\', '\\']
  else if c = '\x08' then ['\\', 'b']
  else if c = '\x0c' then ['\\', 'f']
  else if c = '\n' then ['\\', 'n']
  else if c = '\x0d' then ['\\', 'r']
  else if c = '\t' then ['\\', 't']
  else if c.toNat < 32 then
    ['\\', 'u', '0', '0', hexDigit (c.toNat / 16), hexDigit (c.toNat % 16)]
  else [c]

/-- Escape every character of a string body. -/
def escapeStr : Str → Str
  | [] => []
  | c :: cs => escapeChar c ++ escapeStr cs

/-- A JSON string literal: quote, escaped body, quote. -/
def quoteStr (s : Str) : Str := '\x22' :: (escapeStr s ++ ['\x22'])

/-- The two-space gap of `JSON.stringify(value, null, 2)`. -/
def jsonGap : Str := [' ', ' ']

mutual
/-- SerializeJSONProperty of ECMA-262 `JSON.stringify(v, null, 2)`: `ind` is
the accumulated indentation (a string of spaces). -/
def serVal (ind : Str) : Json → Str
  | Json.null => 'n' :: 'u' :: 'l' :: 'l' :: []
  | Json.bool true => 't' :: 'r' :: 'u' :: 'e' :: []
  | Json.bool false => 'f' :: 'a' :: 'l' :: 's' :: 'e' :: []
  | Json.str s => quoteStr s
  | Json.arr JsonList.nil => '[' :: ']' :: []
  | Json.arr (JsonList.cons h t) =>
    '[' :: '\n' :: ((ind ++ jsonGap) ++
      (serElems (ind ++ jsonGap) (JsonList.cons h t) ++
        ('\n' :: (ind ++ (']' :: [])))))
  | Json.obj JsonFields.nil => '\x7b' :: '\x7d' :: []
  | Json.obj (JsonFields.cons k v t) =>
    '\x7b' :: '\n' :: ((ind ++ jsonGap) ++
      (serFields (ind ++ jsonGap) (JsonFields.cons k v t) ++
        ('\n' :: (ind ++ ('\x7d' :: [])))))
/-- Nonempty array elements, separated by a comma, newline and the element
indentation. -/
def serElems (ind : Str) : JsonList → Str
  | JsonList.nil => []
  | JsonList.cons h JsonList.nil => serVal ind h
  | JsonList.cons h t =>
    serVal ind h ++ (',' :: '\n' :: (ind ++ serElems ind t))
/-- Nonempty object members: quoted key, colon, space, value. -/
def serFields (ind : Str) : JsonFields → Str
  | JsonFields.nil => []
  | JsonFields.cons k v JsonFields.nil =>
    quoteStr k ++ (':' :: ' ' :: serVal ind v)
  | JsonFields.cons k v t =>
    quoteStr k ++ (':' :: ' ' :: serVal ind v) ++
      (',' :: '\n' :: (ind ++ serFields ind t))
end

/-- The whitespace JSON.parse skips between tokens. -/
def isJsonWs (c : Char) : Bool :=
  c.toNat == 32 || c.toNat == 9 || c.toNat == 10 || c.toNat == 13

/-- Skip insignificant whitespace. -/
def skipWs (s : Str) : Str := s.dropWhile isJsonWs

/-- Hex digit value (JSON `u` escapes accept both cases). -/
def hexVal? (c : Char) : Option Nat :=
  if 48 ≤ c.toNat ∧ c.toNat ≤ 57 then some (c.toNat - 48)
  else if 97 ≤ c.toNat ∧ c.toNat ≤ 102 then some (c.toNat - 87)
  else if 65 ≤ c.toNat ∧ c.toNat ≤ 70 then some (c.toNat - 55)
  else none

/-- The single-character JSON string escapes. -/
def unescapeChar? (e : Char) : Option Char :=
  if e = '\x22' then some '\x22'
  else if e = '\\' then some '\\'
  else if e = '/' then some '/'
  else if e = 'b' then some '\x08'
  else if e = 'f' then some '\x0c'
  else if e = 'n' then some '\n'
  else if e = 'r' then some '\x0d'
  else if e = 't' then some '\t'
  else none

/-- Parse the remainder of a JSON string literal, after its opening quote. -/
def parseStr : Str → Option (Str × Str)
  | [] => none
  | '\x22' :: rest => some ([], rest)
  | '\\' :: 'u' :: h1 :: h2 :: h3 :: h4 :: rest =>
    match hexVal? h1, hexVal? h2, hexVal? h3, hexVal? h4 with
    | some a, some b, some c2, some d =>
      if (((a * 16 + b) * 16 + c2) * 16 + d).isValidChar then
        (parseStr rest).map
          (fun p => (Char.ofNat (((a * 16 + b) * 16 + c2) * 16 + d) :: p.1, p.2))
      else none
    | _, _, _, _ => none
  | '\\' :: e :: rest =>
    match unescapeChar? e with
    | some c2 => (parseStr rest).map (fun p => (c2 :: p.1, p.2))
    | none => none
  | c :: rest => (parseStr rest).map (fun p => (c :: p.1, p.2))

mutual
/-- Parse one JSON value (fuel bounds the nesting depth). -/
def parseVal (fuel : Nat) (s : Str) : Option (Json × Str) :=
  match fuel with
  | 0 => none
  | fuel + 1 =>
    match skipWs s with
    | [] => none
    | c :: rest =>
      if c = 'n' then
        match rest with
        | 'u' :: 'l' :: 'l' :: rest2 => some (Json.null, rest2)
        | _ => none
      else if c = 't' then
        match rest with
        | 'r' :: 'u' :: 'e' :: rest2 => some (Json.bool true, rest2)
        | _ => none
      else if c = 'f' then
        match rest with
        | 'a' :: 'l' :: 's' :: 'e' :: rest2 => some (Json.bool false, rest2)
        | _ => none
      else if c = '\x22' then
        (parseStr rest).map (fun p => (Json.str p.1, p.2))
      else if c = '[' then parseArrTail fuel rest
      else if c = '\x7b' then parseObjTail fuel rest
      else none
/-- After `[`: an empty array, or the element list. -/
def parseArrTail (fuel : Nat) (rest : Str) : Option (Json × Str) :=
  match skipWs rest with
  | ']' :: rest2 => some (Json.arr JsonList.nil, rest2)
  | _ => (parseElems fuel rest).map (fun p => (Json.arr p.1, p.2))
/-- After an opening brace: an empty object, or the member list. -/
def parseObjTail (fuel : Nat) (rest : Str) : Option (Json × Str) :=
  match skipWs rest with
  | '\x7d' :: rest2 => some (Json.obj JsonFields.nil, rest2)
  | _ => (parseFields fuel rest).map (fun p => (Json.obj p.1, p.2))
/-- One or more comma-separated array elements, then the closing bracket. -/
def parseElems (fuel : Nat) (s : Str) : Option (JsonList × Str) :=
  match fuel with
  | 0 => none
  | fuel + 1 =>
    match parseVal fuel s with
    | none => none
    | some (v, rest) =>
      match skipWs rest with
      | ',' :: rest2 =>
        (parseElems fuel rest2).map (fun p => (JsonList.cons v p.1, p.2))
      | ']' :: rest2 => some (JsonList.cons v JsonList.nil, rest2)
      | _ => none
/-- One or more comma-separated object members, then the closing brace. -/
def parseFields (fuel : Nat) (s : Str) : Option (JsonFields × Str) :=
  match fuel with
  | 0 => none
  | fuel + 1 =>
    match skipWs s with
    | '\x22' :: rest =>
      (match parseStr rest with
       | none => none
       | some (k, rest1) =>
         match skipWs rest1 with
         | ':' :: rest2 =>
           (match parseVal fuel rest2 with
            | none => none
            | some (v, rest3) =>
              match skipWs rest3 with
              | ',' :: rest4 =>
                (parseFields fuel rest4).map
                  (fun p => (JsonFields.cons k v p.1, p.2))
              | '\x7d' :: rest4 => some (JsonFields.cons k v JsonFields.nil, rest4)
              | _ => none)
         | _ => none)
    | _ => none
end

mutual
/-- Fuel sufficient for `parseVal` on the serialization of a value. -/
def fuelVal : Json → Nat
  | Json.null => 1
  | Json.bool _ => 1
  | Json.str _ => 1
  | Json.arr JsonList.nil => 1
  | Json.arr (JsonList.cons h t) => fuelElems (JsonList.cons h t) + 1
  | Json.obj JsonFields.nil => 1
  | Json.obj (JsonFields.cons k v t) => fuelFields (JsonFields.cons k v t) + 1
/-- Fuel sufficient for `parseElems` on a serialized element list. -/
def fuelElems : JsonList → Nat
  | JsonList.nil => 1
  | JsonList.cons h t => max (fuelVal h) (fuelElems t) + 1
/-- Fuel sufficient for `parseFields` on a serialized member list. -/
def fuelFields : JsonFields → Nat
  | JsonFields.nil => 1
  | JsonFields.cons _ v t => max (fuelVal v) (fuelFields t) + 1
end

/-- `JSON.parse`: parse one value and require only trailing whitespace. The
fuel `s.length + 1` dominates the nesting depth of any value the text can
encode. -/
def jsonParse (s : Str) : Option Json :=
  match parseVal (s.length + 1) s with
  | some (v, rest) => if (skipWs rest).isEmpty then some v else none
  | none => none

/-- One stored record as fetched for export: `{uri, cid, value}` with the
full semi-structured value document. -/
structure StoredRecord where
  uri : Str
  cid : Str
  value : Json

/-- `exportPosts` (src/unnamed/part_001): `records.map(record => ({uri, cid,
value}))` as a JSON array; `triggerJsonExport` (ui.js) serializes the same
shape. -/
def exportJson : List StoredRecord → JsonList
  | [] => JsonList.nil
  | r :: rs =>
    JsonList.cons
      (Json.obj (JsonFields.cons ("uri".data) (Json.str r.uri)
        (JsonFields.cons ("cid".data) (Json.str r.cid)
          (JsonFields.cons ("value".data) r.value JsonFields.nil))))
      (exportJson rs)

/-- The JSON text written by the export:
`JSON.stringify(exportData, null, 2)`. -/
def exportJsonText (records : List StoredRecord) : Str :=
  serVal [] (Json.arr (exportJson records))

/-- Read one re-parsed export entry back into a record, by its `uri`, `cid`
and `value` members. -/
def decodeEntry : Json → Option StoredRecord
  | Json.obj (JsonFields.cons k1 (Json.str u)
      (JsonFields.cons k2 (Json.str c) (JsonFields.cons k3 v JsonFields.nil))) =>
    if k1 = "uri".data ∧ k2 = "cid".data ∧ k3 = "value".data then
      some { uri := u, cid := c, value := v }
    else none
  | _ => none

/-- Read a whole re-parsed export back. -/
def decodeExport : JsonList → Option (List StoredRecord)
  | JsonList.nil => some []
  | JsonList.cons e t =>
    match decodeEntry e, decodeExport t with
    | some r, some rs => some (r :: rs)
    | _, _ => none


theorem mem_insertOrd (le : α → α → Bool) (a x : α) (l : List α) :
    x ∈ insertOrd le a l ↔ x = a ∨ x ∈ l := by
  induction l with
  | nil => simp [insertOrd]
  | cons b l ih =>
    by_cases h : le a b
    · simp [insertOrd, h]
    · simp only [insertOrd, if_neg h, List.mem_cons, ih]
      tauto

theorem pairwise_insertOrd (le : α → α → Bool)
    (htot : ∀ a b, (le a b || le b a) = true)
    (htr : ∀ a b c, le a b = true → le b c = true → le a c = true)
    (a : α) (l : List α) (h : l.Pairwise (fun x y => le x y = true)) :
    (insertOrd le a l).Pairwise (fun x y => le x y = true) := by
  induction l with
  | nil => simp [insertOrd]
  | cons b l ih =>
    rcases List.pairwise_cons.mp h with ⟨hb, hl⟩
    by_cases hab : le a b = true
    · rw [insertOrd, if_pos hab]
      refine List.pairwise_cons.mpr ⟨?_, h⟩
      intro y hy
      rcases List.mem_cons.mp hy with rfl | hy
      · exact hab
      · exact htr a b y hab (hb y hy)
    · rw [insertOrd, if_neg hab]
      refine List.pairwise_cons.mpr ⟨?_, ih hl⟩
      intro y hy
      rcases (mem_insertOrd le a y l).mp hy with h1 | hy
      · rw [h1]
        rcases Bool.or_eq_true_iff.mp (htot a b) with h2 | h2
        · exact absurd h2 hab
        · exact h2
      · exact hb y hy

theorem sorted_jsSortLe (le : α → α → Bool)
    (htot : ∀ a b, (le a b || le b a) = true)
    (htr : ∀ a b c, le a b = true → le b c = true → le a c = true)
    (l : List α) :
    (jsSortLe le l).Pairwise (fun x y => le x y = true) := by
  induction l with
  | nil => simp [jsSortLe]
  | cons a l ih => exact pairwise_insertOrd le htot htr a (jsSortLe le l) ih

theorem perm_insertOrd (le : α → α → Bool) (a : α) (l : List α) :
    (insertOrd le a l).Perm (a :: l) := by
  induction l with
  | nil => simp [insertOrd]
  | cons b l ih =>
    by_cases h : le a b
    · simp [insertOrd, h]
    · rw [insertOrd, if_neg h]
      exact (ih.cons b).trans (List.Perm.swap a b l)

theorem perm_jsSortLe (le : α → α → Bool) (l : List α) :
    (jsSortLe le l).Perm l := by
  induction l with
  | nil => simp [jsSortLe]
  | cons a l ih => exact (perm_insertOrd le a (jsSortLe le l)).trans (ih.cons a)

theorem sortCompare_total (dp : Str → Option Int) (so : Str) (a b : PostRecord) :
    (decide (sortCompareFn dp so a b ≤ 0) || decide (sortCompareFn dp so b a ≤ 0)) = true := by
  rcases hA : dateKey dp a with _ | x <;> rcases hB : dateKey dp b with _ | y <;>
    simp only [sortCompareFn, hA, hB, compareAsc, compareDesc, Bool.or_eq_true_iff,
      decide_eq_true_eq] <;> first | omega | (split_ifs <;> omega)

theorem sortCompare_trans (dp : Str → Option Int) (so : Str) (a b c : PostRecord)
    (h1 : decide (sortCompareFn dp so a b ≤ 0) = true)
    (h2 : decide (sortCompareFn dp so b c ≤ 0) = true) :
    decide (sortCompareFn dp so a c ≤ 0) = true := by
  rcases hA : dateKey dp a with _ | x <;> rcases hB : dateKey dp b with _ | y <;>
    rcases hC : dateKey dp c with _ | z <;>
    simp only [sortCompareFn, hA, hB, hC, compareAsc, compareDesc,
      decide_eq_true_eq] at h1 h2 ⊢ <;>
    first | omega | (split_ifs at h1 h2 ⊢ <;> omega)

theorem sorted_getFilteredAndSortedPosts (dateParse : Str → Option Int)
    (posts : List PostRecord) (searchTerm category sortOrder : Str) :
    (getFilteredAndSortedPosts dateParse posts searchTerm category sortOrder).Pairwise
      (fun a b => decide (sortCompareFn dateParse sortOrder a b ≤ 0) = true) := by
  unfold getFilteredAndSortedPosts
  exact sorted_jsSortLe _ (sortCompare_total dateParse sortOrder)
    (sortCompare_trans dateParse sortOrder) _

/-- C1 counterexample: under the `oldest` sort order the projection places a
record with NO `publishedAt` BEFORE a record with the valid date 2024-01-01
(the missing date is treated as `new Date(0)`, a valid epoch date, so it is
the earliest and is displayed first, not last). -/
theorem c1_counterexample :
    getFilteredAndSortedPosts demoDateParse [rJan, rUndated] [] [] ("oldest".data)
        = [rUndated, rJan]
      ∧ rUndated.value.publishedAt = none
      ∧ dateKey demoDateParse rJan = some 1704067200000
      ∧ rUndated ≠ rJan := by decide

/-- C1 (amended): in the projection output, (1) for every sort order a record
with an unparseable `publishedAt` (an Invalid Date) is never followed by a
record with a parseable or missing one; (2) under `newest`, a record whose
date key is the epoch (in particular one with missing or empty `publishedAt`)
is never followed by a record with a strictly positive timestamp, so such
records come after all records with post-1970 dates; (3) Scenario B holds
under `newest`: dates 2024-01-01, 2024-06-01 and an undated record sort as
2024-06-01, 2024-01-01, then the undated one.  (Under `oldest` a missing
`publishedAt` is the epoch and sorts first, per `c1_counterexample`.) -/
theorem c1_amended (dateParse : Str → Option Int) (posts : List PostRecord)
    (searchTerm category sortOrder : Str) :
    ((getFilteredAndSortedPosts dateParse posts searchTerm category sortOrder).Pairwise
      (fun a b => dateKey dateParse a = none → dateKey dateParse b = none))
    ∧ ((getFilteredAndSortedPosts dateParse posts searchTerm category ("newest".data)).Pairwise
      (fun a b => dateKey dateParse a = some 0 →
        ∀ t, dateKey dateParse b = some t → t ≤ 0))
    ∧ getFilteredAndSortedPosts demoDateParse [rJan, rJun, rUndated] [] []
        ("newest".data) = [rJun, rJan, rUndated] := by
  refine ⟨?_, ?_, by decide⟩
  · refine (sorted_getFilteredAndSortedPosts dateParse posts searchTerm category
      sortOrder).imp ?_
    intro a b hle hA
    rcases hB : dateKey dateParse b with _ | y
    · rfl
    · exfalso
      simp only [decide_eq_true_eq, sortCompareFn, hA, hB] at hle
      omega
  · refine (sorted_getFilteredAndSortedPosts dateParse posts searchTerm category
      ("newest".data)).imp ?_
    intro a b hle hA t hB
    simp only [decide_eq_true_eq, sortCompareFn, hA, hB, compareDesc] at hle
    have hne : ("newest".data : Str) ≠ "oldest".data := by decide
    rw [if_neg hne] at hle
    split_ifs at hle <;> omega

/-- Witness instantiating `c1_amended` at a concrete cache and evaluating the
scenario conjunct. -/
theorem c1_amended_witness :
    getFilteredAndSortedPosts demoDateParse [rJan, rJun, rUndated] [] []
        ("newest".data) = [rJun, rJan, rUndated] :=
  (c1_amended demoDateParse [rJan, rJun, rUndated] [] [] ("newest".data)).2.2

theorem uri_nodup_appendPostsToCache (cache newPosts : List PostRecord)
    (hc : (cache.map (fun p => p.uri)).Nodup)
    (hn : (newPosts.map (fun p => p.uri)).Nodup) :
    ((appendPostsToCache cache newPosts).map (fun p => p.uri)).Nodup := by
  simp only [appendPostsToCache]
  rw [List.map_append, List.nodup_append]
  refine ⟨hc, ?_, ?_⟩
  · exact hn.sublist
      (List.Sublist.map (fun p : PostRecord => p.uri) (List.filter_sublist newPosts))
  · intro u hu hu2
    rcases List.mem_map.mp hu2 with ⟨p, hp, rfl⟩
    rcases List.mem_filter.mp hp with ⟨hpmem, hpf⟩
    rw [Bool.not_eq_eq_eq_not, Bool.not_true] at hpf
    have hnot : p.uri ∉ cache.map (fun q => q.uri) := by simpa using hpf
    exact hnot (by simpa using hu)

theorem appendPostsToCache_of_all_present (cache batch : List PostRecord)
    (h : ∀ p ∈ batch, p.uri ∈ cache.map (fun q => q.uri)) :
    appendPostsToCache cache batch = cache := by
  simp only [appendPostsToCache]
  have hnil : batch.filter (fun p => !((cache.map (fun p => p.uri)).contains p.uri)) = [] := by
    rw [List.filter_eq_nil_iff]
    intro p hp
    simp only [Bool.not_eq_eq_eq_not, Bool.not_true]
    simpa using h p hp
  rw [hnil, List.append_nil]

/-- C3: folding any sequence of batches, each with pairwise distinct uris but
arbitrarily repeating or overlapping each other, into the cache through
`appendPostsToCache` yields a cache in which every uri occurs at most once;
and a batch whose uris are all already cached leaves the cache unchanged. -/
theorem c3_append_dedup (batches : List (List PostRecord))
    (h : ∀ b ∈ batches, (b.map (fun p => p.uri)).Nodup) :
    ((batches.foldl appendPostsToCache []).map (fun p => p.uri)).Nodup
    ∧ ∀ cache batch, (∀ p ∈ batch, p.uri ∈ cache.map (fun q => q.uri)) →
        appendPostsToCache cache batch = cache := by
  constructor
  · have aux : ∀ (bs : List (List PostRecord)) (start : List PostRecord),
        (start.map (fun p => p.uri)).Nodup →
        (∀ b ∈ bs, (b.map (fun p => p.uri)).Nodup) →
        ((bs.foldl appendPostsToCache start).map (fun p => p.uri)).Nodup := by
      intro bs
      induction bs with
      | nil => intro start hs _; simpa using hs
      | cons b bs ih =>
        intro start hs hb
        rw [List.foldl_cons]
        exact ih (appendPostsToCache start b)
          (uri_nodup_appendPostsToCache start b hs (hb b (by simp)))
          (fun x hx => hb x (by simp [hx]))
    exact aux batches [] (by simp) h
  · exact appendPostsToCache_of_all_present

/-- Witness for `c3_append_dedup`: two overlapping pages produce a one-copy
cache, and re-appending an already-present page changes nothing. -/
theorem c3_append_dedup_witness :
    (([[rJan], [rJan, rJun]].foldl appendPostsToCache []).map (fun p => p.uri)).Nodup
    ∧ [[rJan], [rJan, rJun]].foldl appendPostsToCache [] = [rJan, rJun]
    ∧ appendPostsToCache [rJan, rJun] [rJan] = [rJan, rJun] :=
  ⟨(c3_append_dedup [[rJan], [rJan, rJun]] (by decide)).1, by decide,
    (c3_append_dedup [] (by decide)).2 [rJan, rJun] [rJan] (by decide)⟩

/-- C5 counterexample: the update-branch cache replacement at a uri that is
not cached is a no-op, not an insert: the updated record is absent from the
cache afterwards. -/
theorem c5_counterexample :
    replacePostInCache [rJan] rJun = [rJan] ∧ rJun ∉ [rJan] := by decide

/-- C5 (amended): after a successful update the cache entry bearing the
record uri is swapped in place — the length is unchanged, every position
whose entry matches the uri now holds the new record, and every other
position is untouched; but when NO cached entry bears the uri the cache is
left entirely unchanged: the update branch never inserts (only the create
branch does, via unshift). -/
theorem c5_replace_in_place (cache : List PostRecord) (r : PostRecord) :
    (replacePostInCache cache r).length = cache.length
    ∧ (∀ i : Nat, (replacePostInCache cache r)[i]? =
        (cache[i]?).map (fun p => if p.uri = r.uri then r else p))
    ∧ ((∀ p ∈ cache, p.uri ≠ r.uri) → replacePostInCache cache r = cache) := by
  refine ⟨by simp [replacePostInCache], ?_, ?_⟩
  · intro i
    simp [replacePostInCache]
  · intro h
    unfold replacePostInCache
    conv_rhs => rw [← List.map_id cache]
    refine List.map_congr_left ?_
    intro p hp
    simp [h p hp]

/-- Witness for `c5_replace_in_place` at a concrete cache whose single entry
does not carry the updated uri. -/
theorem c5_replace_in_place_witness :
    replacePostInCache [rJan] rJun = [rJan] :=
  (c5_replace_in_place [rJan] rJun).2.2 (by decide)

/-- C7: while a fetch walk is in flight (`isLoadingMore` set), the internal
fetch and the load-more handler are both no-ops: for every behaviour of the
store the state comes back unchanged — records, cursor, loaded flag and
category set untouched — and the result does not depend on `fetchBatch` at
all, so no list-page request is observable. -/
theorem c7_inflight_noop (st : WriteState) (h : st.isLoadingMore = true) :
    (∀ fetchBatch cursor, fetchAndAppendPosts fetchBatch st cursor = st)
    ∧ (∀ fetchBatch, handleLoadMore fetchBatch st = st) := by
  constructor
  · intro fb c
    simp [fetchAndAppendPosts, h]
  · intro fb
    simp [handleLoadMore, h]

/-- Witness for `c7_inflight_noop`: a second load-more issued on a state with
a walk in flight returns it unchanged even though the store would deliver a
new record. -/
theorem c7_inflight_noop_witness :
    handleLoadMore (fun _ => Except.ok { records := [rJun], cursor := none })
      loadingState = loadingState :=
  (c7_inflight_noop loadingState rfl).2 _

theorem strLe_total : ∀ s t : Str, (strLe s t || strLe t s) = true := by
  intro s
  induction s with
  | nil => intro t; simp [strLe]
  | cons a s ih =>
    intro t
    cases t with
    | nil => simp [strLe]
    | cons b t =>
      simp only [strLe]
      by_cases hab : a.toNat < b.toNat
      · simp [hab]
      · by_cases hba : b.toNat < a.toNat
        · simp [hab, hba]
        · simp [hab, hba, ih t]

theorem strLe_trans :
    ∀ s t u : Str, strLe s t = true → strLe t u = true → strLe s u = true := by
  intro s
  induction s with
  | nil => intro t u h1 h2; simp [strLe]
  | cons a s ih =>
    intro t u h1 h2
    cases t with
    | nil => simp [strLe] at h1
    | cons b t =>
      cases u with
      | nil => simp [strLe] at h2
      | cons c u =>
        simp only [strLe] at h1 h2 ⊢
        by_cases hab : a.toNat < b.toNat
        · by_cases hbc : b.toNat < c.toNat
          · have hac : a.toNat < c.toNat := Nat.lt_trans hab hbc
            simp [hac]
          · by_cases hcb : c.toNat < b.toNat
            · simp [hbc, hcb] at h2
            · have hac : a.toNat < c.toNat := by omega
              simp [hac]
        · by_cases hba : b.toNat < a.toNat
          · simp [hab, hba] at h1
          · rw [if_neg hab, if_neg hba] at h1
            by_cases hbc : b.toNat < c.toNat
            · have hac : a.toNat < c.toNat := by omega
              simp [hac]
            · by_cases hcb : c.toNat < b.toNat
              · simp [hbc, hcb] at h2
              · rw [if_neg hbc, if_neg hcb] at h2
                have hac : ¬ a.toNat < c.toNat := by omega
                have hca : ¬ c.toNat < a.toNat := by omega
                rw [if_neg hac, if_neg hca]
                exact ih t u h1 h2

theorem no_recommended_addCategoryOfPost (acc : List Str) (p : PostRecord)
    (h : ("Recommended".data : Str) ∉ acc) :
    ("Recommended".data : Str) ∉ addCategoryOfPost acc p := by
  unfold addCategoryOfPost
  rcases hc : p.value.category with _ | c0
  · exact h
  · simp only [hc]
    split_ifs with hcond
    · rw [List.mem_append]
      rintro (h1 | h2)
      · exact h h1
      · rw [List.mem_singleton] at h2
        simp only [Bool.and_eq_true, bne_iff_ne] at hcond
        exact hcond.1.2 h2.symm
    · exact h

theorem nodup_addCategoryOfPost (acc : List Str) (p : PostRecord)
    (h : acc.Nodup) : (addCategoryOfPost acc p).Nodup := by
  unfold addCategoryOfPost
  rcases hc : p.value.category with _ | c0
  · exact h
  · simp only [hc]
    split_ifs with hcond
    · simp only [Bool.and_eq_true] at hcond
      have hnotmem : jsTrim c0 ∉ acc := by simpa using hcond.2
      rw [List.nodup_append]
      refine ⟨h, by simp, ?_⟩
      intro x hx hx2
      rw [List.mem_singleton] at hx2
      exact hnotmem (hx2 ▸ hx)
    · exact h

theorem no_recommended_updateUniqueCategories (posts : List PostRecord) :
    ∀ cats : List Str, ("Recommended".data : Str) ∉ cats →
      ("Recommended".data : Str) ∉ updateUniqueCategories cats posts := by
  induction posts with
  | nil => intro cats h; exact h
  | cons p posts ih =>
    intro cats h
    exact ih (addCategoryOfPost cats p) (no_recommended_addCategoryOfPost cats p h)

theorem nodup_updateUniqueCategories (posts : List PostRecord) :
    ∀ cats : List Str, cats.Nodup → (updateUniqueCategories cats posts).Nodup := by
  induction posts with
  | nil => intro cats h; exact h
  | cons p posts ih =>
    intro cats h
    exact ih (addCategoryOfPost cats p) (nodup_addCategoryOfPost cats p h)

/-- C10: on any state whose category set was built by
`updateUniqueCategories` (so it is duplicate-free and cannot contain the
literal string `Recommended` — final conjunct), `getUniqueCategories` returns
the actual categories sorted lexicographically (a sorted permutation of the
set), with the synthetic `Recommended` entry prepended as first element
exactly when some cached record has `recommended === true`; when no record is
recommended the output does not contain `Recommended` at all. -/
theorem c10_category_query (st : WriteState)
    (hR : ("Recommended".data : Str) ∉ st.uniqueCategories)
    (hN : st.uniqueCategories.Nodup) :
    (getUniqueCategories st =
      if st.fetchedPostsCache.any (fun p => p.value.recommended == some true) then
        "Recommended".data :: jsSortLe strLe st.uniqueCategories
      else jsSortLe strLe st.uniqueCategories)
    ∧ (jsSortLe strLe st.uniqueCategories).Pairwise (fun a b => strLe a b = true)
    ∧ (jsSortLe strLe st.uniqueCategories).Perm st.uniqueCategories
    ∧ (getUniqueCategories st).Nodup
    ∧ (st.fetchedPostsCache.any (fun p => p.value.recommended == some true) = false →
        ("Recommended".data : Str) ∉ getUniqueCategories st)
    ∧ (∀ posts cats, ("Recommended".data : Str) ∉ cats →
        ("Recommended".data : Str) ∉ updateUniqueCategories cats posts) := by
  have hperm := perm_jsSortLe strLe st.uniqueCategories
  have hRs : ("Recommended".data : Str) ∉ jsSortLe strLe st.uniqueCategories :=
    fun hmem => hR (hperm.mem_iff.mp hmem)
  have hcont : (jsSortLe strLe st.uniqueCategories).contains ("Recommended".data) = false := by
    simpa using hRs
  have hform : getUniqueCategories st =
      if st.fetchedPostsCache.any (fun p => p.value.recommended == some true) then
        "Recommended".data :: jsSortLe strLe st.uniqueCategories
      else jsSortLe strLe st.uniqueCategories := by
    unfold getUniqueCategories
    rcases hany : st.fetchedPostsCache.any (fun p => p.value.recommended == some true) with _ | _
    · simp [hany]
    · simp [hany, hcont]
      exact hRs
  refine ⟨hform, sorted_jsSortLe strLe strLe_total strLe_trans _, hperm, ?_, ?_, ?_⟩
  · rw [hform]
    have hsorted : (jsSortLe strLe st.uniqueCategories).Nodup := hperm.nodup_iff.mpr hN
    rcases hany : st.fetchedPostsCache.any (fun p => p.value.recommended == some true) with _ | _
    · simpa using hsorted
    · simpa using ⟨hRs, hsorted⟩
  · intro hany
    rw [hform, hany]
    simpa using hRs
  · intro posts cats hc
    exact no_recommended_updateUniqueCategories posts cats hc

/-- Witness for `c10_category_query`: a concrete state with categories
`tech`, `art` and one recommended cached record gives
`Recommended, art, tech`. -/
theorem c10_category_query_witness :
    getUniqueCategories catState =
      ["Recommended".data, "art".data, "tech".data] := by
  rw [(c10_category_query catState (by decide) (by decide)).1]
  decide

/-- C2 counterexample: a page with fewer records than the requested limit
(1 < MAX_LIST_LIMIT) but a present cursor does NOT terminate the full
walks: both the renderer walk and the CLI export walk request the next page
and return its records too. -/
theorem c2_counterexample :
    fetchAllRecordsForUser shortPageStore 30 = Except.ok [rJan, rJun]
    ∧ fetchAllRecords shortPageStore 10 = some [rJan, rJun]
    ∧ shortPageStore none = Except.ok { records := [rJan], cursor := some ("c1".data) }
    ∧ [rJan].length < MAX_LIST_LIMIT :=
  ⟨rfl, rfl, rfl, by decide⟩

/-- C2 (amended): the full-collection walks stop exactly on an absent cursor
or — renderer walk only — an exhausted page budget; a short page with a
present cursor does not stop them (conjuncts 1-3: step equations of the
renderer loop, applying to pages of any length; conjunct 4: the CLI loop has
no budget at all and continues whenever a cursor is present). The short-page
rule exists only in the write-UI incremental loader: a fetched batch sets
`allPostsLoaded` exactly when the cursor is absent or the batch is shorter
than POSTS_PER_PAGE, and a load-more on an all-loaded state is a no-op
(conjuncts 5-6). -/
theorem c2_stop_conditions (listPage : Option Str → Except Str ListPage)
    (budget : Nat) (cursor : Option Str) (acc : List PostRecord)
    (page : ListPage) (h : listPage cursor = Except.ok page) :
    (page.cursor = none →
      fetchAllLoop listPage budget cursor acc = Except.ok (acc ++ page.records))
    ∧ (∀ c, page.cursor = some c → budget ≤ 1 →
        fetchAllLoop listPage budget cursor acc = Except.ok (acc ++ page.records))
    ∧ (∀ c b, page.cursor = some c → budget = b + 2 →
        fetchAllLoop listPage budget cursor acc =
          fetchAllLoop listPage (b + 1) (some c) (acc ++ page.records))
    ∧ (∀ fuel c, page.cursor = some c →
        fetchAllRecordsLoop listPage (fuel + 1) cursor acc =
          fetchAllRecordsLoop listPage fuel (some c) (acc ++ page.records))
    ∧ (∀ st batch fetchBatch cur, st.isLoadingMore = false →
        fetchBatch cur = Except.ok batch →
        (fetchAndAppendPosts fetchBatch st cur).allPostsLoaded =
          (batch.cursor.isNone || decide (batch.records.length < POSTS_PER_PAGE)))
    ∧ (∀ st fetchBatch, st.allPostsLoaded = true → handleLoadMore fetchBatch st = st) := by
  refine ⟨?_, ?_, ?_, ?_, ?_, ?_⟩
  · intro hc
    rcases budget with _ | budget
    · simp [fetchAllLoop, h]
    · rcases budget with _ | b
      · simp [fetchAllLoop, h]
      · simp [fetchAllLoop, h, hc]
  · intro c hc hb
    rcases budget with _ | budget
    · simp [fetchAllLoop, h]
    · rcases budget with _ | b
      · simp [fetchAllLoop, h]
      · omega
  · intro c b hc hb
    subst hb
    simp [fetchAllLoop, h, hc]
  · intro fuel c hc
    simp [fetchAllRecordsLoop, h, hc]
  · intro st batch fetchBatch cur hload hfetch
    unfold fetchAndAppendPosts
    rw [if_neg (by simp [hload]), hfetch]
  · intro st fetchBatch hloaded
    unfold handleLoadMore
    rw [if_pos (by simp [hloaded])]

/-- Witness for `c2_stop_conditions`: on the concrete short-page store the
first (short, cursored) page makes the renderer loop continue into a second
request rather than stop. -/
theorem c2_stop_conditions_witness :
    fetchAllLoop shortPageStore 30 none [] =
      fetchAllLoop shortPageStore 29 (some ("c1".data)) [rJan] :=
  (c2_stop_conditions shortPageStore 30 none []
    { records := [rJan], cursor := some ("c1".data) } rfl).2.2.1
    ("c1".data) 28 rfl rfl

/-- C4 counterexample: when the very first page request of the CLI export
walk fails, `fetchAllRecords` returns the success-shaped empty list — the
same value a user with no posts gets — instead of surfacing a fetch error;
the renderer walk likewise converts a 400-style failure into an empty
success. -/
theorem c4_counterexample :
    fetchAllRecords failingStore 10 = some []
    ∧ fetchAllRecordsForUser list400Store 30 = Except.ok []
    ∧ failingStore none = Except.error ("Network request failed".data) :=
  ⟨rfl, rfl, rfl⟩

/-- C4 (amended): a failed page request aborts the walk and discards the
accumulated partial result of that walk, but a fetch error is not always
surfaced: the CLI walk returns a success-shaped empty list whatever was
already accumulated (conjunct 1); the renderer loop propagates the error and
its result is independent of the accumulator (conjunct 2); and
`fetchAllRecordsForUser` surfaces the error only when the message does not
mark the expected empty-collection 400, returning an empty success otherwise
(conjunct 3). -/
theorem c4_failure_discards (listPage : Option Str → Except Str ListPage) :
    (∀ fuel cursor acc e, listPage cursor = Except.error e →
        fetchAllRecordsLoop listPage (fuel + 1) cursor acc = some [])
    ∧ (∀ budget cursor acc e, fetchAllLoop listPage budget cursor acc = Except.error e →
        ∀ acc2, fetchAllLoop listPage budget cursor acc2 = Except.error e)
    ∧ (∀ maxPages e, listPage none = Except.error e →
        fetchAllRecordsForUser listPage maxPages =
          (if includesSub e ("Could not list records".data) ||
              includesSub e ("Status 400".data)
           then Except.ok [] else Except.error e)) := by
  refine ⟨?_, ?_, ?_⟩
  · intro fuel cursor acc e he
    simp [fetchAllRecordsLoop, he]
  · intro budget
    induction budget using Nat.strong_induction_on with
    | _ budget ih =>
      intro cursor acc e he acc2
      rcases budget with _ | budget
      · rcases hl : listPage cursor with e2 | page <;>
          simp only [fetchAllLoop, hl] at he ⊢
        · exact he
        · simp at he
      · rcases budget with _ | b
        · rcases hl : listPage cursor with e2 | page <;>
            simp only [fetchAllLoop, hl] at he ⊢
          · exact he
          · simp at he
        · rcases hl : listPage cursor with e2 | page <;>
            simp only [fetchAllLoop, hl] at he ⊢
          · exact he
          · rcases hc : page.cursor with _ | c <;> simp only [hc] at he ⊢
            · simp at he
            · exact ih (b + 1) (by omega) (some c) _ e he _
  · intro maxPages e he
    rcases maxPages with _ | m
    · simp [fetchAllRecordsForUser, fetchAllLoop, he]
    · rcases m with _ | b
      · simp [fetchAllRecordsForUser, fetchAllLoop, he]
      · simp [fetchAllRecordsForUser, fetchAllLoop, he]

/-- Witness for `c4_failure_discards`: the CLI walk on the always-failing
store discards a non-empty accumulator and returns the empty list. -/
theorem c4_failure_discards_witness :
    fetchAllRecordsLoop failingStore 5 (some ("c1".data)) [rJan] = some [] :=
  (c4_failure_discards failingStore).1 4 (some ("c1".data)) [rJan]
    ("Network request failed".data) rfl

/-- C6 counterexample: the write-UI loader treats an empty batch that still
carries a cursor as terminal: `allPostsLoaded` becomes true (an empty page is
a short page, 0 < POSTS_PER_PAGE) while the cursor is stored, and the next
load-more returns the state unchanged without consulting the store. -/
theorem c6_counterexample :
    (fetchAndAppendPosts emptyBatchFetch freshState none).allPostsLoaded = true
    ∧ (fetchAndAppendPosts emptyBatchFetch freshState none).cursor = some ("c1".data)
    ∧ handleLoadMore richBatchFetch (fetchAndAppendPosts emptyBatchFetch freshState none)
        = fetchAndAppendPosts emptyBatchFetch freshState none := by decide

/-- C6 (amended): the renderer full walk does not treat an empty-but-cursored
page as terminal: with budget remaining it issues the next request (conjunct
1 is the step equation, conjunct 2 runs the walk on a store whose first page
is empty with a cursor and returns the second page records). The write-UI
incremental loader instead counts an empty batch as a short page and stops
even though a cursor is present (`c6_counterexample`). -/
theorem c6_empty_page_continues (listPage : Option Str → Except Str ListPage)
    (b : Nat) (cursor : Option Str) (acc : List PostRecord) (c : Str)
    (h : listPage cursor = Except.ok { records := [], cursor := some c }) :
    fetchAllLoop listPage (b + 2) cursor acc = fetchAllLoop listPage (b + 1) (some c) acc
    ∧ fetchAllRecordsForUser emptyPageStore 30 = Except.ok [rJun] := by
  constructor
  · simp [fetchAllLoop, h]
  · rfl

/-- Witness for `c6_empty_page_continues`, at the concrete empty-page
store. -/
theorem c6_empty_page_continues_witness :
    fetchAllLoop emptyPageStore 30 none [] =
      fetchAllLoop emptyPageStore 29 (some ("c1".data)) [] :=
  (c6_empty_page_continues emptyPageStore 28 none [] ("c1".data) rfl).1

theorem charOfNat_toNat_mid (n : Nat) (h1 : 97 ≤ n) (h2 : n ≤ 122) :
    (Char.ofNat n).toNat = n := by
  have hv : n.isValidChar := Or.inl (by omega)
  simp [Char.ofNat, hv, Char.ofNatAux, Char.toNat, UInt32.toNat, BitVec.toNat_ofNatLt]

theorem jsToLower_not_upper (c : Char) :
    ¬(65 ≤ (jsToLower c).toNat ∧ (jsToLower c).toNat ≤ 90) := by
  unfold jsToLower
  split_ifs with h
  · have := charOfNat_toNat_mid (c.toNat + 32) (by omega) (by omega)
    omega
  · omega

theorem jsToLower_fixed_of_not_upper (c : Char)
    (h : ¬(65 ≤ c.toNat ∧ c.toNat ≤ 90)) : jsToLower c = c := by
  unfold jsToLower
  rw [if_neg h]

theorem not_ws_of_wordOrHyphen (c : Char) (h : isWordOrHyphen c = true) :
    isJsWs c = false := by
  unfold isWordOrHyphen isWordChar at h
  unfold isJsWs
  simp only [Bool.or_eq_true, Bool.and_eq_true, beq_iff_eq, decide_eq_true_eq,
    Bool.or_eq_false_iff, beq_eq_false_iff_ne, ne_eq] at h ⊢
  omega

theorem head?_collapseRuns (p : Char → Bool) (r : Char) :
    ∀ (d : Char) (cs : Str),
      (collapseRuns p r (d :: cs)).head? = some (if p d then r else d) := by
  intro d cs
  induction cs generalizing d with
  | nil => simp only [collapseRuns]; split_ifs <;> rfl
  | cons e cs ih =>
    simp only [collapseRuns]
    split_ifs with h1 h2
    · simp [ih e, h1, h2]
    · simp
    · simp

theorem mem_collapseRuns (p : Char → Bool) (r : Char) :
    ∀ (l : Str) (c : Char), c ∈ collapseRuns p r l → c ∈ l ∨ c = r := by
  intro l
  induction l with
  | nil => intro c hc; simp [collapseRuns] at hc
  | cons a tail ih =>
    intro c hc
    cases tail with
    | nil =>
      simp only [collapseRuns] at hc
      split_ifs at hc with h
      · simp only [List.mem_singleton] at hc
        exact Or.inr hc
      · simp only [List.mem_singleton] at hc
        exact Or.inl (by rw [hc]; exact List.mem_singleton_self a)
    | cons d cs =>
      simp only [collapseRuns] at hc
      split_ifs at hc with h1 h2
      · rcases ih c hc with h | h
        · exact Or.inl (List.mem_cons_of_mem a h)
        · exact Or.inr h
      · rcases List.mem_cons.mp hc with rfl | hc2
        · exact Or.inr rfl
        · rcases ih c hc2 with h | h
          · exact Or.inl (List.mem_cons_of_mem a h)
          · exact Or.inr h
      · rcases List.mem_cons.mp hc with rfl | hc2
        · exact Or.inl (List.mem_cons_self _ _)
        · rcases ih c hc2 with h | h
          · exact Or.inl (List.mem_cons_of_mem a h)
          · exact Or.inr h

theorem chain'_collapseRuns (p : Char → Bool) (r : Char) :
    ∀ l : Str,
      List.Chain' (fun x y => p x = true → p y = false) (collapseRuns p r l) := by
  intro l
  induction l with
  | nil => simp [collapseRuns]
  | cons a tail ih =>
    cases tail with
    | nil =>
      simp only [collapseRuns]
      split_ifs <;> simp
    | cons d cs =>
      simp only [collapseRuns]
      split_ifs with h1 h2
      · exact ih
      · rw [List.chain'_cons']
        refine ⟨?_, ih⟩
        intro y hy
        rw [head?_collapseRuns p r d cs, if_neg h2, Option.mem_def,
          Option.some_inj] at hy
        subst hy
        intro _
        simpa using h2
      · rw [List.chain'_cons']
        refine ⟨?_, ih⟩
        intro y hy
        intro hpa
        exact absurd hpa h1

theorem collapseRuns_eq_self_of_not (p : Char → Bool) (r : Char) :
    ∀ l : Str, (∀ c ∈ l, p c = false) → collapseRuns p r l = l := by
  intro l
  induction l with
  | nil => intro _; rfl
  | cons a tail ih =>
    intro h
    have ha : p a = false := h a (List.mem_cons_self _ _)
    cases tail with
    | nil =>
      simp only [collapseRuns]
      rw [if_neg (by simp [ha])]
    | cons d cs =>
      simp only [collapseRuns]
      rw [if_neg (by simp [ha]), ih (fun c hc => h c (List.mem_cons_of_mem a hc))]

theorem collapseRuns_eq_self_of_chain (p : Char → Bool) (r : Char) :
    ∀ l : Str, (∀ c ∈ l, p c = true → c = r) →
      List.Chain' (fun x y => p x = true → p y = false) l →
      collapseRuns p r l = l := by
  intro l
  induction l with
  | nil => intro _ _; rfl
  | cons a tail ih =>
    intro hmem hchain
    cases tail with
    | nil =>
      simp only [collapseRuns]
      split_ifs with h
      · rw [hmem a (List.mem_cons_self _ _) h]
      · rfl
    | cons d cs =>
      have hchain2 := (List.chain'_cons'.mp hchain).2
      simp only [collapseRuns]
      split_ifs with h1 h2
      · have hrel := (List.chain'_cons'.mp hchain).1 d rfl
        rw [hrel h1] at h2
        exact absurd h2 (by simp)
      · rw [ih (fun c hc => hmem c (List.mem_cons_of_mem a hc)) hchain2,
          hmem a (List.mem_cons_self _ _) h1]
      · rw [ih (fun c hc => hmem c (List.mem_cons_of_mem a hc)) hchain2]

theorem dropWhile_eq_self_of_all (p : Char → Bool) (l : Str)
    (h : ∀ c ∈ l, p c = false) : l.dropWhile p = l := by
  cases l with
  | nil => rfl
  | cons a tail =>
    rw [List.dropWhile_cons, if_neg (by simp [h a (List.mem_cons_self _ _)])]

theorem dropWhile_eq_self_of_head (p : Char → Bool) (l : Str)
    (h : ∀ c ∈ l.head?, p c = false) : l.dropWhile p = l := by
  cases l with
  | nil => rfl
  | cons a tail =>
    rw [List.dropWhile_cons, if_neg (by simp [h a rfl])]

theorem dropTrailing_eq_self_of_all (p : Char → Bool) (l : Str)
    (h : ∀ c ∈ l, p c = false) : dropTrailing p l = l := by
  unfold dropTrailing
  rw [dropWhile_eq_self_of_all p l.reverse (fun c hc => h c (List.mem_reverse.mp hc)),
    List.reverse_reverse]

theorem dropTrailing_eq_self_of_last (p : Char → Bool) (l : Str)
    (h : ∀ c ∈ l.reverse.head?, p c = false) : dropTrailing p l = l := by
  unfold dropTrailing
  rw [dropWhile_eq_self_of_head p l.reverse h, List.reverse_reverse]

theorem jsTrim_eq_self_of_all (l : Str) (h : ∀ c ∈ l, isJsWs c = false) :
    jsTrim l = l := by
  unfold jsTrim
  rw [dropWhile_eq_self_of_all _ l h, dropTrailing_eq_self_of_all _ l h]

theorem mem_dropTrailing (p : Char → Bool) (l : Str) (c : Char)
    (h : c ∈ dropTrailing p l) : c ∈ l := by
  unfold dropTrailing at h
  rw [List.mem_reverse] at h
  exact List.mem_reverse.mp ((List.dropWhile_sublist p).subset h)

theorem mem_jsTrim (l : Str) (c : Char) (h : c ∈ jsTrim l) : c ∈ l := by
  unfold jsTrim at h
  exact (List.dropWhile_sublist isJsWs).subset (mem_dropTrailing _ _ c h)

theorem dropTrailing_isPrefixOf (p : Char → Bool) (l : Str) :
    dropTrailing p l <+: l := by
  unfold dropTrailing
  have h2 := List.reverse_prefix.mpr (List.dropWhile_suffix p (l := l.reverse))
  rwa [List.reverse_reverse] at h2

theorem head_fails_dropWhile (p : Char → Bool) (l : Str) :
    ∀ c ∈ (l.dropWhile p).head?, p c = false := by
  intro c hc
  have h := List.head?_dropWhile_not p l
  rw [Option.mem_def] at hc
  rw [hc] at h
  exact h

theorem last_fails_dropTrailing (p : Char → Bool) (l : Str) :
    ∀ c ∈ (dropTrailing p l).reverse.head?, p c = false := by
  unfold dropTrailing
  rw [List.reverse_reverse]
  exact head_fails_dropWhile p l.reverse

theorem head?_mem_of_isPrefixOf (l1 l2 : Str) (h : l1 <+: l2) (c : Char)
    (hc : c ∈ l1.head?) : c ∈ l2.head? := by
  rcases h with ⟨t, rfl⟩
  cases l1 with
  | nil => simp at hc
  | cons a l => simpa using hc

theorem map_jsToLower_eq_self (l : Str)
    (h : ∀ c ∈ l, ¬(65 ≤ c.toNat ∧ c.toNat ≤ 90)) : l.map jsToLower = l := by
  conv_rhs => rw [← List.map_id l]
  exact List.map_congr_left (fun c hc => jsToLower_fixed_of_not_upper c (h c hc))

theorem slugCore_chars (x : Str) :
    ∀ c ∈ slugCore x, isWordOrHyphen c = true ∧ ¬(65 ≤ c.toNat ∧ c.toNat ≤ 90) := by
  intro c hc
  unfold slugCore at hc
  rcases mem_collapseRuns _ _ _ c hc with h4 | rfl
  · refine ⟨(List.mem_filter.mp h4).2, ?_⟩
    have h3 := (List.mem_filter.mp h4).1
    rcases mem_collapseRuns _ _ _ c h3 with h2 | rfl
    · have h1 := mem_jsTrim _ c h2
      rcases List.mem_map.mp h1 with ⟨c0, _, rfl⟩
      exact jsToLower_not_upper c0
    · decide
  · constructor <;> decide

theorem slugCore_chain (x : Str) :
    List.Chain' (fun a b => (a == '-') = true → (b == '-') = false) (slugCore x) :=
  chain'_collapseRuns _ '-' _

theorem slugCore_fixed (y : Str)
    (hchars : ∀ c ∈ y, isWordOrHyphen c = true ∧ ¬(65 ≤ c.toNat ∧ c.toNat ≤ 90))
    (hchain : List.Chain' (fun a b => (a == '-') = true → (b == '-') = false) y) :
    slugCore y = y := by
  unfold slugCore
  have hws : ∀ c ∈ y, isJsWs c = false :=
    fun c hc => not_ws_of_wordOrHyphen c (hchars c hc).1
  rw [map_jsToLower_eq_self y (fun c hc => (hchars c hc).2),
    jsTrim_eq_self_of_all y hws, collapseRuns_eq_self_of_not _ _ y hws,
    List.filter_eq_self.mpr (fun c hc => (hchars c hc).1),
    collapseRuns_eq_self_of_chain _ _ y (fun c _ hc => by simpa using hc) hchain]

theorem sanitizeSlug_of_sanitized (y : Str) (final : Bool)
    (hchars : ∀ c ∈ y, isWordOrHyphen c = true ∧ ¬(65 ≤ c.toNat ∧ c.toNat ≤ 90))
    (hchain : List.Chain' (fun a b => (a == '-') = true → (b == '-') = false) y)
    (hhead : final = true → ∀ c ∈ y.head?, (c == '-') = false)
    (hlast : final = true → ∀ c ∈ y.reverse.head?, (c == '-') = false) :
    sanitizeSlug y final = y := by
  unfold sanitizeSlug
  split_ifs with hempty hfinal
  · exact (List.isEmpty_iff.mp hempty).symm
  · rw [slugCore_fixed y hchars hchain,
      dropWhile_eq_self_of_head _ y (hhead hfinal),
      dropTrailing_eq_self_of_last _ y (hlast hfinal)]
  · exact slugCore_fixed y hchars hchain

/-- C8: the slug sanitizer is idempotent: re-sanitizing its own output, with
the same finalization flag, returns the output unchanged. -/
theorem c8_sanitizeSlug_idempotent (x : Str) (final : Bool) :
    sanitizeSlug (sanitizeSlug x final) final = sanitizeSlug x final := by
  apply sanitizeSlug_of_sanitized
  · intro c hc
    unfold sanitizeSlug at hc
    split_ifs at hc with hempty hfinal
    · simp at hc
    · exact slugCore_chars x c
        ((List.dropWhile_sublist _).subset (mem_dropTrailing _ _ c hc))
    · exact slugCore_chars x c hc
  · unfold sanitizeSlug
    split_ifs with hempty hfinal
    · simp
    · exact List.Chain'.prefix
        ((slugCore_chain x).suffix (List.dropWhile_suffix _))
        (dropTrailing_isPrefixOf _ _)
    · exact slugCore_chain x
  · intro hfinal c hc
    subst hfinal
    unfold sanitizeSlug at hc
    split_ifs at hc with hempty hfin
    · simp at hc
    · exact head_fails_dropWhile (fun c => c == '-') (slugCore x) c
        (head?_mem_of_isPrefixOf _ _ (dropTrailing_isPrefixOf _ _) c hc)
    · exact absurd rfl hfin
  · intro hfinal c hc
    subst hfinal
    unfold sanitizeSlug at hc
    split_ifs at hc with hempty hfin
    · simp at hc
    · exact last_fails_dropTrailing (fun c => c == '-') _ c hc
    · exact absurd rfl hfin

/-- Witness for `c8_sanitizeSlug_idempotent` at the Scenario D input, whose
sanitized form is also evaluated concretely. -/
theorem c8_sanitizeSlug_idempotent_witness :
    sanitizeSlug (sanitizeSlug ("  My First Post!! ".data) true) true =
      sanitizeSlug ("  My First Post!! ".data) true
    ∧ sanitizeSlug ("  My First Post!! ".data) true = "my-first-post".data :=
  ⟨c8_sanitizeSlug_idempotent ("  My First Post!! ".data) true, by decide⟩

theorem charOfNat_toNat (c : Char) : Char.ofNat c.toNat = c := by
  apply Char.eq_of_val_eq
  have hv : c.toNat.isValidChar := c.valid
  simp only [Char.ofNat, hv, dif_pos, Char.ofNatAux]
  apply UInt32.eq_of_toBitVec_eq
  apply BitVec.eq_of_toNat_eq
  simp [BitVec.toNat_ofNatLt, Char.toNat, UInt32.toNat]

theorem skipWs_cons_of_not (c : Char) (s : Str) (h : isJsonWs c = false) :
    skipWs (c :: s) = c :: s := by
  simp [skipWs, List.dropWhile_cons, h]

theorem skipWs_append_of_ws (w s : Str) (h : ∀ c ∈ w, isJsonWs c = true) :
    skipWs (w ++ s) = skipWs s := by
  induction w with
  | nil => rfl
  | cons a w ih =>
    rw [List.cons_append]
    show List.dropWhile isJsonWs (a :: (w ++ s)) = skipWs s
    rw [List.dropWhile_cons, if_pos (by simp [h a (List.mem_cons_self _ _)])]
    exact ih (fun c hc => h c (List.mem_cons_of_mem a hc))

theorem parseVal_ws (fuel : Nat) (w s : Str) (h : ∀ c ∈ w, isJsonWs c = true) :
    parseVal fuel (w ++ s) = parseVal fuel s := by
  cases fuel with
  | zero => rw [parseVal, parseVal]
  | succ f =>
    rw [parseVal, parseVal, skipWs_append_of_ws w s h]

theorem hexVal?_hexDigit (n : Nat) (h : n < 16) : hexVal? (hexDigit n) = some n := by
  have : ∀ m : Nat, m < 16 → hexVal? (hexDigit m) = some m := by decide
  exact this n h

theorem parseStr_closing (rest : Str) : parseStr ('\x22' :: rest) = some ([], rest) := by
  rfl

theorem parseStr_plain (c : Char) (rest : Str) (h1 : ¬c = '\x22') (h2 : ¬c = '\\') :
    parseStr (c :: rest) = (parseStr rest).map (fun p => (c :: p.1, p.2)) := by
  rw [parseStr.eq_def]
  split <;> simp_all

theorem parseStr_named (e c2 : Char) (rest : Str) (he : unescapeChar? e = some c2)
    (hu : ¬e = 'u') :
    parseStr ('\\' :: e :: rest) = (parseStr rest).map (fun p => (c2 :: p.1, p.2)) := by
  rw [parseStr.eq_def]
  split
  · simp_all
  · simp_all
  · simp_all
  · simp_all
  · rename_i hshape heq
    rcases heq with ⟨hc, hr⟩
    exact absurd rfl (hshape e rest rfl)

theorem parseStr_hex (c : Char) (rest : Str) (h : c.toNat < 32) :
    parseStr ('\\' :: 'u' :: '0' :: '0' :: hexDigit (c.toNat / 16) ::
        hexDigit (c.toNat % 16) :: rest) =
      (parseStr rest).map (fun p => (c :: p.1, p.2)) := by
  have h1 : hexVal? (hexDigit (c.toNat / 16)) = some (c.toNat / 16) :=
    hexVal?_hexDigit _ (by omega)
  have h2 : hexVal? (hexDigit (c.toNat % 16)) = some (c.toNat % 16) :=
    hexVal?_hexDigit _ (by omega)
  have h0 : hexVal? '0' = some 0 := by decide
  rw [parseStr, h0, h1, h2]
  have hn : ((0 * 16 + 0) * 16 + c.toNat / 16) * 16 + c.toNat % 16 = c.toNat := by
    omega
  simp only [hn, charOfNat_toNat]
  rw [if_pos (show c.toNat.isValidChar from c.valid)]

theorem parseStr_escapeStr (s : Str) : ∀ rest : Str,
    parseStr (escapeStr s ++ ('\x22' :: rest)) = some (s, rest) := by
  induction s with
  | nil => intro rest; rw [escapeStr, List.nil_append, parseStr_closing]
  | cons c cs ih =>
    intro rest
    rw [escapeStr, List.append_assoc]
    by_cases h1 : c = '\x22'
    · subst h1
      rw [show escapeChar '\x22' ++ (escapeStr cs ++ ('\x22' :: rest)) =
        '\\' :: '\x22' :: (escapeStr cs ++ ('\x22' :: rest)) from rfl]
      rw [parseStr_named '\x22' '\x22' _ rfl (by decide), ih rest]
      rfl
    by_cases h2 : c = '\\'
    · subst h2
      rw [show escapeChar '\\' ++ (escapeStr cs ++ ('\x22' :: rest)) =
        '\\' :: '\\' :: (escapeStr cs ++ ('\x22' :: rest)) from rfl]
      rw [parseStr_named '\\' '\\' _ rfl (by decide), ih rest]
      rfl
    by_cases h3 : c = '\x08'
    · subst h3
      rw [show escapeChar '\x08' ++ (escapeStr cs ++ ('\x22' :: rest)) =
        '\\' :: 'b' :: (escapeStr cs ++ ('\x22' :: rest)) from rfl]
      rw [parseStr_named 'b' '\x08' _ rfl (by decide), ih rest]
      rfl
    by_cases h4 : c = '\x0c'
    · subst h4
      rw [show escapeChar '\x0c' ++ (escapeStr cs ++ ('\x22' :: rest)) =
        '\\' :: 'f' :: (escapeStr cs ++ ('\x22' :: rest)) from rfl]
      rw [parseStr_named 'f' '\x0c' _ rfl (by decide), ih rest]
      rfl
    by_cases h5 : c = '\n'
    · subst h5
      rw [show escapeChar '\n' ++ (escapeStr cs ++ ('\x22' :: rest)) =
        '\\' :: 'n' :: (escapeStr cs ++ ('\x22' :: rest)) from rfl]
      rw [parseStr_named 'n' '\n' _ rfl (by decide), ih rest]
      rfl
    by_cases h6 : c = '\x0d'
    · subst h6
      rw [show escapeChar '\x0d' ++ (escapeStr cs ++ ('\x22' :: rest)) =
        '\\' :: 'r' :: (escapeStr cs ++ ('\x22' :: rest)) from rfl]
      rw [parseStr_named 'r' '\x0d' _ rfl (by decide), ih rest]
      rfl
    by_cases h7 : c = '\t'
    · subst h7
      rw [show escapeChar '\t' ++ (escapeStr cs ++ ('\x22' :: rest)) =
        '\\' :: 't' :: (escapeStr cs ++ ('\x22' :: rest)) from rfl]
      rw [parseStr_named 't' '\t' _ rfl (by decide), ih rest]
      rfl
    by_cases h8 : c.toNat < 32
    · have hesc : escapeChar c =
          ['\\', 'u', '0', '0', hexDigit (c.toNat / 16), hexDigit (c.toNat % 16)] := by
        unfold escapeChar
        rw [if_neg h1, if_neg h2, if_neg h3, if_neg h4, if_neg h5, if_neg h6,
          if_neg h7, if_pos h8]
      rw [hesc]
      rw [show (['\\', 'u', '0', '0', hexDigit (c.toNat / 16),
          hexDigit (c.toNat % 16)] : Str) ++ (escapeStr cs ++ ('\x22' :: rest)) =
        '\\' :: 'u' :: '0' :: '0' :: hexDigit (c.toNat / 16) ::
          hexDigit (c.toNat % 16) :: (escapeStr cs ++ ('\x22' :: rest)) from rfl]
      rw [parseStr_hex c _ h8, ih rest]
      rfl
    · have hesc : escapeChar c = [c] := by
        unfold escapeChar
        rw [if_neg h1, if_neg h2, if_neg h3, if_neg h4, if_neg h5, if_neg h6,
          if_neg h7, if_neg h8]
      rw [hesc]
      rw [show ([c] : Str) ++ (escapeStr cs ++ ('\x22' :: rest)) =
        c :: (escapeStr cs ++ ('\x22' :: rest)) from rfl]
      rw [parseStr_plain c _ h1 h2, ih rest]
      rfl

theorem parseStr_quoteStr (s rest : Str) :
    parseStr ((escapeStr s ++ ['\x22']) ++ rest) = some (s, rest) := by
  rw [List.append_assoc]
  exact parseStr_escapeStr s rest

theorem parseVal_null_step (fuel : Nat) (s rest : Str)
    (h : skipWs s = 'n' :: 'u' :: 'l' :: 'l' :: rest) :
    parseVal (fuel + 1) s = some (Json.null, rest) := by
  rw [parseVal.eq_def]
  simp only [h]
  rfl

theorem parseVal_true_step (fuel : Nat) (s rest : Str)
    (h : skipWs s = 't' :: 'r' :: 'u' :: 'e' :: rest) :
    parseVal (fuel + 1) s = some (Json.bool true, rest) := by
  rw [parseVal.eq_def]
  simp only [h]
  rfl

theorem parseVal_false_step (fuel : Nat) (s rest : Str)
    (h : skipWs s = 'f' :: 'a' :: 'l' :: 's' :: 'e' :: rest) :
    parseVal (fuel + 1) s = some (Json.bool false, rest) := by
  rw [parseVal.eq_def]
  simp only [h]
  rfl

theorem parseVal_str_step (fuel : Nat) (s rest : Str)
    (h : skipWs s = '\x22' :: rest) :
    parseVal (fuel + 1) s = (parseStr rest).map (fun p => (Json.str p.1, p.2)) := by
  rw [parseVal.eq_def]
  simp only [h]
  rfl

theorem parseVal_arr_step (fuel : Nat) (s rest : Str)
    (h : skipWs s = '[' :: rest) :
    parseVal (fuel + 1) s = parseArrTail fuel rest := by
  rw [parseVal.eq_def]
  simp only [h]
  rfl

theorem parseVal_obj_step (fuel : Nat) (s rest : Str)
    (h : skipWs s = '\x7b' :: rest) :
    parseVal (fuel + 1) s = parseObjTail fuel rest := by
  rw [parseVal.eq_def]
  simp only [h]
  rfl

theorem parseArrTail_empty (fuel : Nat) (rest rest2 : Str)
    (h : skipWs rest = ']' :: rest2) :
    parseArrTail fuel rest = some (Json.arr JsonList.nil, rest2) := by
  rw [parseArrTail.eq_def]
  simp only [h]

theorem parseArrTail_elems (fuel : Nat) (rest : Str) (c : Char) (t : Str)
    (h : skipWs rest = c :: t) (hc : ¬c = ']') :
    parseArrTail fuel rest =
      (parseElems fuel rest).map (fun p => (Json.arr p.1, p.2)) := by
  rw [parseArrTail.eq_def, h]
  split <;> simp_all

theorem parseObjTail_empty (fuel : Nat) (rest rest2 : Str)
    (h : skipWs rest = '\x7d' :: rest2) :
    parseObjTail fuel rest = some (Json.obj JsonFields.nil, rest2) := by
  rw [parseObjTail.eq_def]
  simp only [h]

theorem parseObjTail_fields (fuel : Nat) (rest : Str) (c : Char) (t : Str)
    (h : skipWs rest = c :: t) (hc : ¬c = '\x7d') :
    parseObjTail fuel rest =
      (parseFields fuel rest).map (fun p => (Json.obj p.1, p.2)) := by
  rw [parseObjTail.eq_def, h]
  split <;> simp_all

theorem parseElems_last (fuel : Nat) (s : Str) (v : Json) (rest rest2 : Str)
    (h : parseVal fuel s = some (v, rest)) (h2 : skipWs rest = ']' :: rest2) :
    parseElems (fuel + 1) s = some (JsonList.cons v JsonList.nil, rest2) := by
  rw [parseElems.eq_def]
  simp only [h, h2]

theorem parseElems_more (fuel : Nat) (s : Str) (v : Json) (rest rest2 : Str)
    (h : parseVal fuel s = some (v, rest)) (h2 : skipWs rest = ',' :: rest2) :
    parseElems (fuel + 1) s =
      (parseElems fuel rest2).map (fun p => (JsonList.cons v p.1, p.2)) := by
  rw [parseElems.eq_def]
  simp only [h, h2]

theorem parseFields_step (fuel : Nat) (s : Str) (k : Str) (rest1 : Str)
    (rest2 rest3 : Str)
    (h0 : skipWs s = '\x22' :: rest1)
    (h1 : parseStr rest1 = some (k, rest2))
    (h2 : skipWs rest2 = ':' :: rest3) :
    ∀ (v2 : Json) (rest4 : Str), parseVal fuel rest3 = some (v2, rest4) →
      parseFields (fuel + 1) s =
        (match skipWs rest4 with
         | ',' :: rest5 =>
           (parseFields fuel rest5).map (fun p => (JsonFields.cons k v2 p.1, p.2))
         | '\x7d' :: rest5 => some (JsonFields.cons k v2 JsonFields.nil, rest5)
         | _ => none) := by
  intro v2 rest4 h3
  rw [parseFields.eq_def]
  simp only [h0, h1, h2, h3]

theorem ws_of_spaces (ind : Str) (h : ∀ c ∈ ind, c = ' ') :
    ∀ c ∈ ind, isJsonWs c = true := by
  intro c hc
  rw [h c hc]
  decide

theorem ws_newline_ind (ind : Str) (h : ∀ c ∈ ind, c = ' ') :
    ∀ c ∈ '\n' :: ind, isJsonWs c = true := by
  intro c hc
  rcases List.mem_cons.mp hc with rfl | hc
  · decide
  · exact ws_of_spaces ind h c hc

theorem spaces_ind_gap (ind : Str) (h : ∀ c ∈ ind, c = ' ') :
    ∀ c ∈ ind ++ jsonGap, c = ' ' := by
  intro c hc
  rcases List.mem_append.mp hc with hc | hc
  · exact h c hc
  · rcases List.mem_cons.mp hc with rfl | hc
    · rfl
    · rcases List.mem_cons.mp hc with rfl | hc
      · rfl
      · simp at hc

theorem serVal_head (ind : Str) (v : Json) :
    ∃ c t, serVal ind v = c :: t ∧ isJsonWs c = false ∧ ¬c = ']' ∧
      ¬c = '\x7d' ∧ ¬c = ',' := by
  cases v with
  | null =>
    exact ⟨'n', ['u', 'l', 'l'], by simp [serVal], by decide, by decide,
      by decide, by decide⟩
  | bool b =>
    cases b with
    | true =>
      exact ⟨'t', ['r', 'u', 'e'], by simp [serVal], by decide, by decide,
        by decide, by decide⟩
    | false =>
      exact ⟨'f', ['a', 'l', 's', 'e'], by simp [serVal], by decide, by decide,
        by decide, by decide⟩
  | str s =>
    exact ⟨'\x22', escapeStr s ++ ['\x22'], by simp [serVal, quoteStr],
      by decide, by decide, by decide, by decide⟩
  | arr es =>
    cases es with
    | nil =>
      exact ⟨'[', [']'], by simp [serVal], by decide, by decide, by decide,
        by decide⟩
    | cons h t =>
      exact ⟨'[', '\n' :: ((ind ++ jsonGap) ++
          (serElems (ind ++ jsonGap) (JsonList.cons h t) ++
            ('\n' :: (ind ++ (']' :: []))))),
        by simp [serVal], by decide, by decide, by decide, by decide⟩
  | obj fs =>
    cases fs with
    | nil =>
      exact ⟨'\x7b', ['\x7d'], by simp [serVal], by decide, by decide,
        by decide, by decide⟩
    | cons k v t =>
      exact ⟨'\x7b', '\n' :: ((ind ++ jsonGap) ++
          (serFields (ind ++ jsonGap) (JsonFields.cons k v t) ++
            ('\n' :: (ind ++ ('\x7d' :: []))))),
        by simp [serVal], by decide, by decide, by decide, by decide⟩

theorem serElems_head (ind : Str) (h : Json) (t : JsonList) :
    ∃ c t2, serElems ind (JsonList.cons h t) = c :: t2 ∧ isJsonWs c = false ∧
      ¬c = ']' ∧ ¬c = '\x7d' ∧ ¬c = ',' := by
  rcases serVal_head ind h with ⟨c, t0, hc, hw, h1, h2, h3⟩
  cases t with
  | nil => exact ⟨c, t0, by simp [serElems, hc], hw, h1, h2, h3⟩
  | cons hj tj =>
    exact ⟨c, t0 ++ (',' :: '\n' :: (ind ++ serElems ind (JsonList.cons hj tj))),
      by simp [serElems, hc], hw, h1, h2, h3⟩

theorem serFields_head (ind : Str) (k : Str) (v : Json) (t : JsonFields) :
    ∃ t2, serFields ind (JsonFields.cons k v t) = '\x22' :: t2 := by
  cases t with
  | nil =>
    exact ⟨(escapeStr k ++ ['\x22']) ++ (':' :: ' ' :: serVal ind v),
      by simp [serFields, quoteStr]⟩
  | cons k2 v2 t2 =>
    exact ⟨(escapeStr k ++ ['\x22']) ++ ((':' :: ' ' :: serVal ind v) ++
        (',' :: '\n' :: (ind ++ serFields ind (JsonFields.cons k2 v2 t2)))),
      by simp [serFields, quoteStr]⟩

mutual
theorem parse_serVal (v : Json) : ∀ (ind rest : Str) (fuel : Nat),
    (∀ c ∈ ind, c = ' ') → fuelVal v ≤ fuel →
    parseVal fuel (serVal ind v ++ rest) = some (v, rest) := by
  cases v with
  | null =>
    intro ind rest fuel hind hfuel
    rcases fuel with _ | f
    · simp only [fuelVal] at hfuel; omega
    · rw [show serVal ind Json.null ++ rest = 'n' :: 'u' :: 'l' :: 'l' :: rest from
        by simp [serVal]]
      exact parseVal_null_step f _ rest (skipWs_cons_of_not _ _ (by decide))
  | bool b =>
    intro ind rest fuel hind hfuel
    rcases fuel with _ | f
    · cases b <;> (simp only [fuelVal] at hfuel; omega)
    · cases b with
      | true =>
        rw [show serVal ind (Json.bool true) ++ rest =
          't' :: 'r' :: 'u' :: 'e' :: rest from by simp [serVal]]
        exact parseVal_true_step f _ rest (skipWs_cons_of_not _ _ (by decide))
      | false =>
        rw [show serVal ind (Json.bool false) ++ rest =
          'f' :: 'a' :: 'l' :: 's' :: 'e' :: rest from by simp [serVal]]
        exact parseVal_false_step f _ rest (skipWs_cons_of_not _ _ (by decide))
  | str s =>
    intro ind rest fuel hind hfuel
    rcases fuel with _ | f
    · simp only [fuelVal] at hfuel; omega
    · rw [show serVal ind (Json.str s) ++ rest =
        '\x22' :: ((escapeStr s ++ ['\x22']) ++ rest) from by simp [serVal, quoteStr]]
      rw [parseVal_str_step f _ _ (skipWs_cons_of_not _ _ (by decide))]
      rw [parseStr_quoteStr s rest]
      rfl
  | arr es =>
    cases es with
    | nil =>
      intro ind rest fuel hind hfuel
      rcases fuel with _ | f
      · simp only [fuelVal] at hfuel; omega
      · rw [show serVal ind (Json.arr JsonList.nil) ++ rest = '[' :: (']' :: rest)
          from by simp [serVal]]
        rw [parseVal_arr_step f _ _ (skipWs_cons_of_not _ _ (by decide))]
        exact parseArrTail_empty f _ rest (skipWs_cons_of_not _ _ (by decide))
    | cons h t =>
      intro ind rest fuel hind hfuel
      rcases fuel with _ | f
      · simp only [fuelVal] at hfuel; omega
      · have hfe : fuelElems (JsonList.cons h t) ≤ f := by
          simp only [fuelVal] at hfuel; omega
        rw [show serVal ind (Json.arr (JsonList.cons h t)) ++ rest =
          '[' :: (('\n' :: (ind ++ jsonGap)) ++
            (serElems (ind ++ jsonGap) (JsonList.cons h t) ++
              ('\n' :: (ind ++ (']' :: rest))))) from by
            simp [serVal, List.append_assoc]]
        rw [parseVal_arr_step f _ _ (skipWs_cons_of_not _ _ (by decide))]
        rcases serElems_head (ind ++ jsonGap) h t with ⟨c, t2, hser, hwsc, hbr, _, _⟩
        have hskip : skipWs (('\n' :: (ind ++ jsonGap)) ++
            (serElems (ind ++ jsonGap) (JsonList.cons h t) ++
              ('\n' :: (ind ++ (']' :: rest))))) =
            c :: (t2 ++ ('\n' :: (ind ++ (']' :: rest)))) := by
          rw [skipWs_append_of_ws _ _ (ws_newline_ind _ (spaces_ind_gap ind hind))]
          rw [hser, List.cons_append]
          exact skipWs_cons_of_not _ _ hwsc
        rw [parseArrTail_elems f _ c _ hskip hbr]
        have htail : skipWs ('\n' :: (ind ++ (']' :: rest))) = ']' :: rest := by
          rw [show ('\n' :: (ind ++ (']' :: rest)) : Str) =
            ('\n' :: ind) ++ (']' :: rest) from by simp]
          rw [skipWs_append_of_ws _ _ (ws_newline_ind ind hind)]
          exact skipWs_cons_of_not _ _ (by decide)
        rw [parse_serElems h t (ind ++ jsonGap) ('\n' :: (ind ++ jsonGap))
          ('\n' :: (ind ++ (']' :: rest))) rest f (spaces_ind_gap ind hind)
          (ws_newline_ind _ (spaces_ind_gap ind hind)) htail hfe]
        rfl
  | obj fs =>
    cases fs with
    | nil =>
      intro ind rest fuel hind hfuel
      rcases fuel with _ | f
      · simp only [fuelVal] at hfuel; omega
      · rw [show serVal ind (Json.obj JsonFields.nil) ++ rest = '\x7b' :: ('\x7d' :: rest)
          from by simp [serVal]]
        rw [parseVal_obj_step f _ _ (skipWs_cons_of_not _ _ (by decide))]
        exact parseObjTail_empty f _ rest (skipWs_cons_of_not _ _ (by decide))
    | cons k v t =>
      intro ind rest fuel hind hfuel
      rcases fuel with _ | f
      · simp only [fuelVal] at hfuel; omega
      · have hff : fuelFields (JsonFields.cons k v t) ≤ f := by
          simp only [fuelVal] at hfuel; omega
        rw [show serVal ind (Json.obj (JsonFields.cons k v t)) ++ rest =
          '\x7b' :: (('\n' :: (ind ++ jsonGap)) ++
            (serFields (ind ++ jsonGap) (JsonFields.cons k v t) ++
              ('\n' :: (ind ++ ('\x7d' :: rest))))) from by
            simp [serVal, List.append_assoc]]
        rw [parseVal_obj_step f _ _ (skipWs_cons_of_not _ _ (by decide))]
        rcases serFields_head (ind ++ jsonGap) k v t with ⟨t2, hser⟩
        have hskip : skipWs (('\n' :: (ind ++ jsonGap)) ++
            (serFields (ind ++ jsonGap) (JsonFields.cons k v t) ++
              ('\n' :: (ind ++ ('\x7d' :: rest))))) =
            '\x22' :: (t2 ++ ('\n' :: (ind ++ ('\x7d' :: rest)))) := by
          rw [skipWs_append_of_ws _ _ (ws_newline_ind _ (spaces_ind_gap ind hind))]
          rw [hser, List.cons_append]
          exact skipWs_cons_of_not _ _ (by decide)
        rw [parseObjTail_fields f _ '\x22' _ hskip (by decide)]
        have htail : skipWs ('\n' :: (ind ++ ('\x7d' :: rest))) = '\x7d' :: rest := by
          rw [show ('\n' :: (ind ++ ('\x7d' :: rest)) : Str) =
            ('\n' :: ind) ++ ('\x7d' :: rest) from by simp]
          rw [skipWs_append_of_ws _ _ (ws_newline_ind ind hind)]
          exact skipWs_cons_of_not _ _ (by decide)
        rw [parse_serFields k v t (ind ++ jsonGap) ('\n' :: (ind ++ jsonGap))
          ('\n' :: (ind ++ ('\x7d' :: rest))) rest f (spaces_ind_gap ind hind)
          (ws_newline_ind _ (spaces_ind_gap ind hind)) htail hff]
        rfl
termination_by sizeOf v

theorem parse_serElems (h : Json) (t : JsonList) :
    ∀ (ind w tail rest : Str) (fuel : Nat),
    (∀ c ∈ ind, c = ' ') → (∀ c ∈ w, isJsonWs c = true) →
    skipWs tail = ']' :: rest → fuelElems (JsonList.cons h t) ≤ fuel →
    parseElems fuel (w ++ (serElems ind (JsonList.cons h t) ++ tail)) =
      some (JsonList.cons h t, rest) := by
  intro ind w tail rest fuel hind hw htail hfuel
  rcases fuel with _ | f
  · simp only [fuelElems] at hfuel; omega
  · have hmax1 := Nat.le_max_left (fuelVal h) (fuelElems t)
    have hmax2 := Nat.le_max_right (fuelVal h) (fuelElems t)
    simp only [fuelElems] at hfuel
    cases t with
    | nil =>
      have hv : parseVal f
          (w ++ (serElems ind (JsonList.cons h JsonList.nil) ++ tail)) =
          some (h, tail) := by
        rw [show serElems ind (JsonList.cons h JsonList.nil) = serVal ind h from
          by simp [serElems]]
        rw [parseVal_ws f w _ hw]
        exact parse_serVal h ind tail f hind (by omega)
      exact parseElems_last f _ h tail rest hv htail
    | cons h2 t2 =>
      have hv : parseVal f
          (w ++ (serElems ind (JsonList.cons h (JsonList.cons h2 t2)) ++ tail)) =
          some (h, ',' :: (('\n' :: ind) ++
            (serElems ind (JsonList.cons h2 t2) ++ tail))) := by
        rw [show serElems ind (JsonList.cons h (JsonList.cons h2 t2)) ++ tail =
          serVal ind h ++ (',' :: (('\n' :: ind) ++
            (serElems ind (JsonList.cons h2 t2) ++ tail))) from by
            simp [serElems, List.append_assoc]]
        rw [parseVal_ws f w _ hw]
        exact parse_serVal h ind _ f hind (by omega)
      rw [parseElems_more f _ h _ _ hv (skipWs_cons_of_not _ _ (by decide))]
      rw [parse_serElems h2 t2 ind ('\n' :: ind) tail rest f hind
        (ws_newline_ind ind hind) htail (by omega)]
      rfl
termination_by sizeOf (JsonList.cons h t)

theorem parse_serFields (k : Str) (v : Json) (t : JsonFields) :
    ∀ (ind w tail rest : Str) (fuel : Nat),
    (∀ c ∈ ind, c = ' ') → (∀ c ∈ w, isJsonWs c = true) →
    skipWs tail = '\x7d' :: rest → fuelFields (JsonFields.cons k v t) ≤ fuel →
    parseFields fuel (w ++ (serFields ind (JsonFields.cons k v t) ++ tail)) =
      some (JsonFields.cons k v t, rest) := by
  intro ind w tail rest fuel hind hw htail hfuel
  rcases fuel with _ | f
  · simp only [fuelFields] at hfuel; omega
  · have hmax1 := Nat.le_max_left (fuelVal v) (fuelFields t)
    have hmax2 := Nat.le_max_right (fuelVal v) (fuelFields t)
    simp only [fuelFields] at hfuel
    cases t with
    | nil =>
      have h0 : skipWs (w ++ (serFields ind (JsonFields.cons k v JsonFields.nil) ++ tail)) =
          '\x22' :: (escapeStr k ++ ('\x22' :: (':' :: ([' '] ++ (serVal ind v ++ tail))))) := by
        rw [skipWs_append_of_ws _ _ hw]
        rw [show serFields ind (JsonFields.cons k v JsonFields.nil) ++ tail =
          '\x22' :: (escapeStr k ++ ('\x22' :: (':' :: ([' '] ++ (serVal ind v ++ tail)))))
          from by simp [serFields, quoteStr, List.append_assoc]]
        exact skipWs_cons_of_not _ _ (by decide)
      have h1 : parseStr (escapeStr k ++ ('\x22' :: (':' :: ([' '] ++ (serVal ind v ++ tail))))) =
          some (k, ':' :: ([' '] ++ (serVal ind v ++ tail))) :=
        parseStr_escapeStr k _
      have h2 : skipWs (':' :: ([' '] ++ (serVal ind v ++ tail))) =
          ':' :: ([' '] ++ (serVal ind v ++ tail)) :=
        skipWs_cons_of_not _ _ (by decide)
      have hval : parseVal f ([' '] ++ (serVal ind v ++ tail)) = some (v, tail) := by
        rw [parseVal_ws f [' '] _ (by decide)]
        exact parse_serVal v ind tail f hind (by omega)
      rw [parseFields_step f _ k _ _ _ h0 h1 h2 v tail hval]
      rw [htail]
      rfl
    | cons k2 v2 t2 =>
      have h0 : skipWs (w ++ (serFields ind (JsonFields.cons k v (JsonFields.cons k2 v2 t2)) ++ tail)) =
          '\x22' :: (escapeStr k ++ ('\x22' :: (':' :: ([' '] ++ (serVal ind v ++
            (',' :: (('\n' :: ind) ++ (serFields ind (JsonFields.cons k2 v2 t2) ++ tail)))))))) := by
        rw [skipWs_append_of_ws _ _ hw]
        rw [show serFields ind (JsonFields.cons k v (JsonFields.cons k2 v2 t2)) ++ tail =
          '\x22' :: (escapeStr k ++ ('\x22' :: (':' :: ([' '] ++ (serVal ind v ++
            (',' :: (('\n' :: ind) ++ (serFields ind (JsonFields.cons k2 v2 t2) ++ tail))))))))
          from by simp [serFields, quoteStr, List.append_assoc]]
        exact skipWs_cons_of_not _ _ (by decide)
      have h1 : parseStr (escapeStr k ++ ('\x22' :: (':' :: ([' '] ++ (serVal ind v ++
            (',' :: (('\n' :: ind) ++ (serFields ind (JsonFields.cons k2 v2 t2) ++ tail)))))))) =
          some (k, ':' :: ([' '] ++ (serVal ind v ++
            (',' :: (('\n' :: ind) ++ (serFields ind (JsonFields.cons k2 v2 t2) ++ tail)))))) :=
        parseStr_escapeStr k _
      have h2 : skipWs (':' :: ([' '] ++ (serVal ind v ++
            (',' :: (('\n' :: ind) ++ (serFields ind (JsonFields.cons k2 v2 t2) ++ tail)))))) =
          ':' :: ([' '] ++ (serVal ind v ++
            (',' :: (('\n' :: ind) ++ (serFields ind (JsonFields.cons k2 v2 t2) ++ tail))))) :=
        skipWs_cons_of_not _ _ (by decide)
      have hval : parseVal f ([' '] ++ (serVal ind v ++
            (',' :: (('\n' :: ind) ++ (serFields ind (JsonFields.cons k2 v2 t2) ++ tail))))) =
          some (v, ',' :: (('\n' :: ind) ++ (serFields ind (JsonFields.cons k2 v2 t2) ++ tail))) := by
        rw [parseVal_ws f [' '] _ (by decide)]
        exact parse_serVal v ind _ f hind (by omega)
      have hsk : skipWs (',' :: (('\n' :: ind) ++
          (serFields ind (JsonFields.cons k2 v2 t2) ++ tail))) =
          ',' :: (('\n' :: ind) ++ (serFields ind (JsonFields.cons k2 v2 t2) ++ tail)) :=
        skipWs_cons_of_not _ _ (by decide)
      rw [parseFields_step f _ k _ _ _ h0 h1 h2 v _ hval]
      simp only [hsk]
      rw [parse_serFields k2 v2 t2 ind ('\n' :: ind) tail rest f hind
        (ws_newline_ind ind hind) htail (by omega)]
      rfl
termination_by sizeOf (JsonFields.cons k v t)
end

mutual
theorem fuelVal_le_len (ind : Str) (v : Json) :
    fuelVal v ≤ (serVal ind v).length + 1 := by
  cases v with
  | null => simp [fuelVal, serVal]
  | bool b => cases b <;> simp [fuelVal, serVal]
  | str s => simp [fuelVal, serVal, quoteStr]
  | arr es =>
    cases es with
    | nil => simp [fuelVal, serVal]
    | cons h t =>
      have hrec := fuelElems_le_len (ind ++ jsonGap) h t
      rw [fuelVal, serVal]
      simp only [List.length_cons, List.length_append]
      omega
  | obj fs =>
    cases fs with
    | nil => simp [fuelVal, serVal]
    | cons k v t =>
      have hrec := fuelFields_le_len (ind ++ jsonGap) k v t
      rw [fuelVal, serVal]
      simp only [List.length_cons, List.length_append]
      omega
termination_by sizeOf v

theorem fuelElems_le_len (ind : Str) (h : Json) (t : JsonList) :
    fuelElems (JsonList.cons h t) ≤ (serElems ind (JsonList.cons h t)).length + 2 := by
  cases t with
  | nil =>
    have hrec := fuelVal_le_len ind h
    have hm : max (fuelVal h) (fuelElems JsonList.nil) ≤ (serVal ind h).length + 1 := by
      apply Nat.max_le.mpr
      refine ⟨hrec, ?_⟩
      rw [fuelElems]
      omega
    rw [fuelElems, serElems]
    omega
  | cons h2 t2 =>
    have hrec1 := fuelVal_le_len ind h
    have hrec2 := fuelElems_le_len ind h2 t2
    have hm : max (fuelVal h) (fuelElems (JsonList.cons h2 t2)) ≤
        (serVal ind h).length + (serElems ind (JsonList.cons h2 t2)).length + 2 :=
      Nat.max_le.mpr ⟨by omega, by omega⟩
    rw [fuelElems, serElems]
    simp only [List.length_cons, List.length_append]
    omega
    simp
termination_by sizeOf (JsonList.cons h t)

theorem fuelFields_le_len (ind : Str) (k : Str) (v : Json) (t : JsonFields) :
    fuelFields (JsonFields.cons k v t) ≤
      (serFields ind (JsonFields.cons k v t)).length + 2 := by
  cases t with
  | nil =>
    have hrec := fuelVal_le_len ind v
    have hm : max (fuelVal v) (fuelFields JsonFields.nil) ≤ (serVal ind v).length + 1 := by
      apply Nat.max_le.mpr
      refine ⟨hrec, ?_⟩
      rw [fuelFields]
      omega
    rw [fuelFields, serFields]
    simp only [List.length_cons, List.length_append, quoteStr]
    omega
  | cons k2 v2 t2 =>
    have hrec1 := fuelVal_le_len ind v
    have hrec2 := fuelFields_le_len ind k2 v2 t2
    have hm : max (fuelVal v) (fuelFields (JsonFields.cons k2 v2 t2)) ≤
        (serVal ind v).length + (serFields ind (JsonFields.cons k2 v2 t2)).length + 2 :=
      Nat.max_le.mpr ⟨by omega, by omega⟩
    rw [fuelFields, serFields]
    simp only [List.length_cons, List.length_append, quoteStr]
    omega
    simp
termination_by sizeOf (JsonFields.cons k v t)
end

/-- C9: the JSON export round-trips: serializing the exported array of
`{uri, cid, value}` objects with the pretty-printing serializer of
`JSON.stringify(data, null, 2)` and re-parsing the text yields exactly the
exported array, and reading the entries back gives records equal to the
originals by `uri`, `cid` and `value`. -/
theorem c9_export_roundtrip (records : List StoredRecord) :
    jsonParse (exportJsonText records) = some (Json.arr (exportJson records))
    ∧ decodeExport (exportJson records) = some records := by
  constructor
  · unfold jsonParse exportJsonText
    have hp : parseVal ((serVal [] (Json.arr (exportJson records))).length + 1)
        (serVal [] (Json.arr (exportJson records)) ++ []) =
        some (Json.arr (exportJson records), []) :=
      parse_serVal _ [] [] _ (by simp) (fuelVal_le_len [] _)
    rw [List.append_nil] at hp
    rw [hp]
    rfl
  · induction records with
    | nil => rfl
    | cons r rs ih =>
      rw [show exportJson (r :: rs) =
        JsonList.cons
          (Json.obj (JsonFields.cons ("uri".data) (Json.str r.uri)
            (JsonFields.cons ("cid".data) (Json.str r.cid)
              (JsonFields.cons ("value".data) r.value JsonFields.nil))))
          (exportJson rs) from rfl]
      simp [decodeExport, decodeEntry, ih]
